import Mathlib

/-!
Verification of the KakMode motion/selection engine
(`src/common/motion/position.ts`, `src/actions/kakMotion.ts`).

Lines of the buffer are modelled as `List Char`, a document as
`List (List Char)` (the spec's external TextSource is read-only,
line-indexed access: `lineCount`, `lineText`).  JavaScript string indices
that may be `-1` are modelled as `Int`.
-/

namespace KakMode

/-- Intervals of code points matched by JavaScript `\s`
(tab..carriage-return, space, NBSP, Ogham space, U+2000..U+200A,
line/paragraph separators, narrow NBSP, medium math space,
ideographic space, BOM). -/
def wsIntervals : List (Nat × Nat) :=
  [(9, 13), (32, 32), (0xa0, 0xa0), (0x1680, 0x1680), (0x2000, 0x200a),
   (0x2028, 0x2029), (0x202f, 0x202f), (0x205f, 0x205f), (0x3000, 0x3000),
   (0xfeff, 0xfeff)]

/-- Membership of a code point in a list of closed intervals. -/
def inIntervals (rs : List (Nat × Nat)) (n : Nat) : Bool :=
  rs.any fun r => r.1 ≤ n && n ≤ r.2

/-- JavaScript `\s` (whitespace) test for a character. -/
def isWs (c : Char) : Bool :=
  inIntervals wsIntervals c.toNat

/-- A boundary-classifier regex is modelled by its match function:
given the line and a start index, the length of the match that the
regex produces at exactly that index (`none` when the regex cannot
match there). -/
def Matcher : Type := List Char → Nat → Option Nat

/-- Length of the maximal run of characters satisfying `p` starting at
index `j` of `s` (the span a greedy `[class]+` consumes). -/
def runLen (p : Char → Bool) (s : List Char) (j : Nat) : Nat :=
  ((s.drop j).takeWhile p).length

/-- Leftmost match search, fuelled (`s.length + 1 - i` iterations reach
the end of the line exactly). -/
def findFromF (m : Matcher) (s : List Char) : Nat → Nat → Option (Nat × Nat)
  | 0, _ => none
  | fuel + 1, i =>
    if i ≤ s.length then
      match m s i with
      | some L => some (i, L)
      | none => findFromF m s fuel (i + 1)
    else none

/-- Leftmost match search: the smallest `j` with `i ≤ j ≤ s.length` at
which the matcher matches, together with the match length (JavaScript
`RegExp.exec` starting from `lastIndex = i`). -/
def findFrom (m : Matcher) (s : List Char) (i : Nat) : Option (Nat × Nat) :=
  findFromF m s (s.length + 1 - i) i

/-- The `getAllPositions` / `getAllEndPositions` scan loop from
`position.ts`: repeatedly `exec` from the current scan index, record the
match, and advance to the end of the match — forcibly advancing by one
when the match consumed no characters ("Handles the case where an empty
string match causes lastIndex not to advance").  `fuel` bounds the
number of iterations; `s.length + 1` is always enough (proved below). -/
def scanFuel (m : Matcher) (s : List Char) : Nat → Nat → List (Nat × Nat)
  | 0, _ => []
  | fuel + 1, i =>
    match findFrom m s i with
    | none => []
    | some (j, L) => (j, L) :: scanFuel m s fuel (if L = 0 then j + 1 else j + L)

/-- All matches (start index, length) the scan loop produces on a line. -/
def getAllMatches (m : Matcher) (s : List Char) : List (Nat × Nat) :=
  scanFuel m s (s.length + 1) 0

/-- `Position.getAllPositions`: the start indices of all matches. -/
def getAllPositions (m : Matcher) (s : List Char) : List Nat :=
  (getAllMatches m s).map (·.1)

/-- `Position.getAllEndPositions`: the last indices of all non-empty
matches (`result.index + result[0].length - 1`, pushed only when
`result[0].length` is non-zero). -/
def getAllEndPositions (m : Matcher) (s : List Char) : List Nat :=
  ((getAllMatches m s).filter (fun r => 0 < r.2)).map (fun r => r.1 + r.2 - 1)

/-- `makeWordRegex(characterSet)`: the alternation
`([^\s cs]+) | [cs]+ | $^`.  At an index holding a character the first
class containing it matches greedily; `$^` matches (empty) only at
index 0 of the empty line. -/
def simpleMatcher (cs : List Char) : Matcher := fun s j =>
  match s.get? j with
  | some ch =>
    if ¬ isWs ch ∧ ch ∉ cs then some (runLen (fun c => ¬ isWs c ∧ c ∉ cs) s j)
    else if ch ∈ cs then some (runLen (fun c => c ∈ cs) s j)
    else none
  | none => if s.length = 0 ∧ j = 0 then some 0 else none

/-- `Position.NonFileCharacters`: the characters
quote, apostrophe, backtick, semicolon, angle/curly/square/round
brackets, written by code point. -/
def nonFileCharacters : List Char :=
  [Char.ofNat 34, Char.ofNat 39, Char.ofNat 96, Char.ofNat 59,
   Char.ofNat 60, Char.ofNat 62, Char.ofNat 123, Char.ofNat 125,
   Char.ofNat 91, Char.ofNat 93, Char.ofNat 40, Char.ofNat 41]

/-! ### The camelCase classifier (`makeCamelCaseWordRegex`) -/

/-- ASCII `[A-Z]`. -/
def isUpperAZ (c : Char) : Bool := 65 ≤ c.toNat && c.toNat ≤ 90

/-- ASCII `[0-9]`. -/
def isDigit09 (c : Char) : Bool := 48 ≤ c.toNat && c.toNat ≤ 57

/-- `[\sA-Z0-9 cs _]`, the lookahead class after an all-caps or
all-digits continuation character. -/
def camelLookahead (cs : List Char) (c : Char) : Bool :=
  isWs c || isUpperAZ c || isDigit09 c || cs.contains c || c = Char.ofNat 95

/-- `[\s cs _]`, the lookahead class after an underscore continuation. -/
def underLookahead (cs : List Char) (c : Char) : Bool :=
  isWs c || cs.contains c || c = Char.ofNat 95

/-- Number of characters consumed by one `(?:(?<=[B])[A](?=[C]))+`-style
continuation group starting at index `p`: each step consumes a character
of class `a` whose predecessor is of class `b` and whose successor
exists and is of class `la`. -/
def itersLenF (a b la : Char → Bool) (s : List Char) : Nat → Nat → Nat
  | 0, _ => 0
  | fuel + 1, p =>
    match s.get? p with
    | some c =>
      match s.get? (p - 1), s.get? (p + 1) with
      | some cb, some cn =>
        if a c && b cb && la cn && p ≥ 1 then 1 + itersLenF a b la s fuel (p + 1) else 0
      | _, _ => 0
    | none => 0

/-- The continuation-group length with its exact fuel (`s.length - p`
iterations reach the end of the line). -/
def itersLen (a b la : Char → Bool) (s : List Char) (p : Nat) : Nat :=
  itersLenF a b la s (s.length - p) p

/-- `makeCamelCaseWordRegex(characterSet)`: the alternation whose first
branch is a word character `[^\s cs]` followed by either an all-caps
run, an all-digits run, an all-underscore run (each guarded by
lookbehind/lookahead), or a greedy run of `[^\sA-Z0-9 cs _]`; the second
branch is `[cs]+`; the third is `$^`. -/
def camelMatcher (cs : List Char) : Matcher := fun s j =>
  match s.get? j with
  | some ch =>
    if ¬ isWs ch ∧ ch ∉ cs then
      let caps := itersLen isUpperAZ (fun c => isUpperAZ c || c = Char.ofNat 95)
        (camelLookahead cs) s (j + 1)
      let digits := itersLen isDigit09 (fun c => isDigit09 c || c = Char.ofNat 95)
        (camelLookahead cs) s (j + 1)
      let unders := itersLen (fun c => c = Char.ofNat 95) (fun c => c = Char.ofNat 95)
        (underLookahead cs) s (j + 1)
      let rest :=
        if caps ≥ 1 then caps
        else if digits ≥ 1 then digits
        else if unders ≥ 1 then unders
        else runLen (fun c => ¬ isWs c ∧ ¬ isUpperAZ c ∧ ¬ isDigit09 c ∧
          c ∉ cs ∧ c ≠ Char.ofNat 95) s (j + 1)
      some (1 + rest)
    else if ch ∈ cs then some (runLen (fun c => c ∈ cs) s j)
    else none
  | none => if s.length = 0 ∧ j = 0 then some 0 else none

/-! ### The Unicode word classifier (`makeUnicodeWordRegex`) -/

/-- Punctuation code-point intervals of the fixed symbol table
(imported from Vim's `utf_class_buf`). -/
def punctIntervals : List (Nat × Nat) :=
  [(0xa1, 0xbf), (0x37e, 0x37e), (0x387, 0x387), (0x55a, 0x55f),
   (0x589, 0x589), (0x5be, 0x5be), (0x5c0, 0x5c0), (0x5c3, 0x5c3),
   (0x5f3, 0x5f4), (0x60c, 0x60c), (0x61b, 0x61b), (0x61f, 0x61f),
   (0x66a, 0x66d), (0x6d4, 0x6d4), (0x700, 0x70d), (0x964, 0x965),
   (0x970, 0x970), (0xdf4, 0xdf4), (0xe4f, 0xe4f), (0xe5a, 0xe5b),
   (0xf04, 0xf12), (0xf3a, 0xf3d), (0xf85, 0xf85), (0x104a, 0x104f),
   (0x10fb, 0x10fb), (0x1361, 0x1368), (0x166d, 0x166e), (0x169b, 0x169c),
   (0x16eb, 0x16ed), (0x1735, 0x1736), (0x17d4, 0x17dc), (0x1800, 0x180a),
   (0x200c, 0x2027), (0x202a, 0x202e), (0x2030, 0x205e), (0x2060, 0x27ff),
   (0x20a0, 0x27ff), (0x2900, 0x2998), (0x29d8, 0x29db), (0x29fc, 0x29fd),
   (0x2e00, 0x2e7f), (0x3001, 0x3020), (0x3030, 0x3030), (0x303d, 0x303d),
   (0xfd3e, 0xfd3f), (0xfe30, 0xfe6b), (0xff00, 0xff0f), (0xff1a, 0xff20),
   (0xff3b, 0xff40), (0xff5b, 0xff65)]

/-- Superscript interval of the symbol table. -/
def supIntervals : List (Nat × Nat) := [(0x2070, 0x207f)]

/-- Subscript interval of the symbol table. -/
def subIntervals : List (Nat × Nat) := [(0x2080, 0x2094)]

/-- Braille interval of the symbol table. -/
def brailleIntervals : List (Nat × Nat) := [(0x2800, 0x28ff)]

/-- Ideograph intervals of the symbol table. -/
def ideoIntervals : List (Nat × Nat) :=
  [(0x3300, 0x9fff), (0xf900, 0xfaff), (0x20000, 0x2a6df),
   (0x2a700, 0x2b73f), (0x2b740, 0x2b81f), (0x2f800, 0x2fa1f)]

/-- Hiragana interval of the symbol table. -/
def hiraIntervals : List (Nat × Nat) := [(0x3040, 0x309f)]

/-- Katakana interval of the symbol table. -/
def kataIntervals : List (Nat × Nat) := [(0x30a0, 0x30ff)]

/-- Hangul interval of the symbol table. -/
def hangulIntervals : List (Nat × Nat) := [(0xac00, 0xd7a3)]

/-- The symbol-segment character classes of `makeUnicodeWordRegex`, in
alternation order (Punctuation first, which also absorbs the configured
keyword characters, then the other `CharKind`s). -/
def symbolClasses (cs : List Char) : List (Char → Bool) :=
  [fun c => inIntervals punctIntervals c.toNat || cs.contains c,
   fun c => inIntervals supIntervals c.toNat,
   fun c => inIntervals subIntervals c.toNat,
   fun c => inIntervals brailleIntervals c.toNat,
   fun c => inIntervals ideoIntervals c.toNat,
   fun c => inIntervals hiraIntervals c.toNat,
   fun c => inIntervals kataIntervals c.toNat,
   fun c => inIntervals hangulIntervals c.toNat]

/-- The trailing word segment `[^\s …all ranges…]+`: anything that is
neither whitespace nor in any symbol class. -/
def unicodeWordClass (cs : List Char) (c : Char) : Bool :=
  ¬ isWs c && (symbolClasses cs).all fun p => ¬ p c

/-- `makeUnicodeWordRegex(keywordChars)`: eight `([class]+)` symbol
segments, then the word segment, then `$^`, joined by `|`. -/
def unicodeMatcher (cs : List Char) : Matcher := fun s j =>
  match s.get? j with
  | some ch =>
    match (symbolClasses cs ++ [unicodeWordClass cs]).find? (fun p => p ch) with
    | some p => some (runLen p s j)
    | none => none
  | none => if s.length = 0 ∧ j = 0 then some 0 else none

/-- `Position._sentenceEndRegex`, the pattern
`[.!?]{1}([ \n\t]+|$)`: a sentence-end punctuation character followed by
a non-empty run of blank characters or by the end of the line. -/
def sentenceEndMatcher : Matcher := fun s j =>
  match s.get? j with
  | some ch =>
    if ch = Char.ofNat 46 ∨ ch = Char.ofNat 33 ∨ ch = Char.ofNat 63 then
      let r := runLen (fun c => c = Char.ofNat 32 ∨ c = Char.ofNat 10 ∨ c = Char.ofNat 9) s (j + 1)
      if r ≥ 1 then some (1 + r)
      else if j + 1 = s.length then some 1
      else none
    else none
  | none => none

/-- The pattern `\S`: a single non-whitespace character. -/
def nonWsMatcher : Matcher := fun s j =>
  match s.get? j with
  | some ch => if ¬ isWs ch then some 1 else none
  | none => none

/-! ### Positions and the document model -/

/-- `Position`: an immutable (line, character) pair. -/
structure Pos where
  line : Nat
  character : Nat
deriving DecidableEq, Repr

/-- A `{start, stop}` region (`IMovement`). -/
structure Region where
  start : Pos
  stop : Pos
deriving DecidableEq, Repr

/-- The result of a motion's `execAction`: either a single `Position`
(point motion) or an `IMovement` region (region motion). -/
inductive MotionResult where
  | point (p : Pos)
  | region (r : Region)
deriving DecidableEq, Repr

/-- Whether an `execAction` result is a single position. -/
def isPointResult : MotionResult → Bool
  | .point _ => true
  | .region _ => false

/-- A document: the buffer's lines (the external TextSource of the
spec, `lineText(index)` excluding terminators). -/
def Doc : Type := List (List Char)

/-- `TextEditor.getLineCount()`. -/
def lineCount (doc : Doc) : Nat := doc.length

/-- `TextEditor.getLineAt / readLineAt`: the text of line `ℓ`. -/
def lineText (doc : Doc) (ℓ : Nat) : List Char := (doc.get? ℓ).getD []

/-- `Position.getLineLength`. -/
def lineLength (doc : Doc) (ℓ : Nat) : Nat := (lineText doc ℓ).length

/-- The character of the document at a position. -/
def charAt (doc : Doc) (p : Pos) : Option Char := (lineText doc p.line).get? p.character

/-- `isLineBeginning()`. -/
def isLineBeginning (p : Pos) : Bool := p.character = 0

/-- `isLineEnd()`. -/
def isLineEnd (doc : Doc) (p : Pos) : Bool := p.character ≥ lineLength doc p.line

/-- `isAtDocumentBegin()`. -/
def isAtDocumentBegin (p : Pos) : Bool := p.line = 0 && isLineBeginning p

/-- `isAtDocumentEnd()`. -/
def isAtDocumentEnd (doc : Doc) (p : Pos) : Bool :=
  p.line = lineCount doc - 1 && isLineEnd doc p

/-- `getLeft(count)`: `Math.max(this.character - count, 0)`, returning
`this` unchanged when the character does not move. -/
def getLeft (p : Pos) (count : Nat) : Pos :=
  let newCharacter := p.character - count
  if newCharacter ≠ p.character then ⟨p.line, newCharacter⟩ else p

/-- `getRight(count)`: `character + count` unless already at line end. -/
def getRight (doc : Doc) (p : Pos) (count : Nat) : Pos :=
  if ¬ isLineEnd doc p then ⟨p.line, p.character + count⟩ else p

/-- `getLineBegin()`. -/
def getLineBegin (p : Pos) : Pos := ⟨p.line, 0⟩

/-- `getLineEnd()`. -/
def getLineEnd (doc : Doc) (p : Pos) : Pos := ⟨p.line, lineLength doc p.line⟩

/-- `getLineEndIncludingEOL()`. -/
def getLineEndIncludingEOL (doc : Doc) (p : Pos) : Pos :=
  ⟨p.line, lineLength doc p.line + 1⟩

/-- `getDocumentBegin()`. -/
def getDocumentBegin : Pos := ⟨0, 0⟩

/-- `getDocumentEnd()`: the line end of the last line. -/
def getDocumentEnd (doc : Doc) : Pos :=
  let lc := lineCount doc
  let l := if lc > 0 then lc - 1 else 0
  ⟨l, lineLength doc l⟩

/-- `getDown(desiredColumn)`. -/
def getDown (doc : Doc) (p : Pos) (desiredColumn : Nat) : Pos :=
  if (getDocumentEnd doc).line ≠ p.line then
    ⟨p.line + 1, min (lineLength doc (p.line + 1)) desiredColumn⟩
  else p

/-- `getUp(desiredColumn)`. -/
def getUp (doc : Doc) (p : Pos) (desiredColumn : Nat) : Pos :=
  if getDocumentBegin.line ≠ p.line then
    ⟨p.line - 1, min (lineLength doc (p.line - 1)) desiredColumn⟩
  else p

/-- `getNextLineBegin()`. -/
def getNextLineBegin (doc : Doc) (p : Pos) : Pos :=
  if p.line ≥ lineCount doc - 1 then getLineEnd doc p else ⟨p.line + 1, 0⟩

/-- `getLeftThroughLineBreaks(includeEol = true)`. -/
def getLeftThroughLineBreaks (doc : Doc) (includeEol : Bool) (p : Pos) : Pos :=
  if ¬ isLineBeginning p then getLeft p 1
  else if p.line = 0 then p
  else if includeEol then getLineEnd doc (getUp doc p 0)
  else getLeft (getLineEnd doc (getUp doc p 0)) 1

/-- `getRightThroughLineBreaks(includeEol = false)`. -/
def getRightThroughLineBreaks (doc : Doc) (includeEol : Bool) (p : Pos) : Pos :=
  if isAtDocumentEnd doc p then p
  else if isLineEnd doc p then getDown doc p 0
  else if ¬ includeEol ∧ isLineEnd doc (getRight doc p 1) then getDown doc p 0
  else getRight doc p 1

/-! ### Literal-character find (`findHelper` and friends) -/

/-- JavaScript `String.prototype.indexOf(char, fromIndex)`: the smallest
index `k ≥ max(fromIndex, 0)` holding `c`, or `-1`. -/
def jsIndexOf (s : List Char) (c : Char) (fromIndex : Int) : Int :=
  match (((List.range s.length).drop fromIndex.toNat).filter
      (fun (k : Nat) => s.get? k = some c)).head? with
  | some k => (k : Int)
  | none => -1

/-- JavaScript `String.prototype.lastIndexOf(char, fromIndex)`: the
largest index `k ≤ min(max(fromIndex, 0), length)` holding `c`, or
`-1`. -/
def jsLastIndexOf (s : List Char) (c : Char) (fromIndex : Int) : Int :=
  match (((List.range s.length).filter (fun (k : Nat) => k ≤ fromIndex.toNat)).filter
      (fun (k : Nat) => s.get? k = some c)).getLast? with
  | some k => (k : Int)
  | none => -1

/-- The loop of `findHelper(char, count, direction)`.  Scans the current
line with `indexOf`/`lastIndexOf` from one step beyond the previous hit;
when the line is exhausted (`index === -1`) it moves to the **next**
line (for either direction — the line-advance branch does not test the
direction) restarting at index 0, or gives up at the last line.  Returns
the final `(index, lineNum)` pair of the loop. -/
def findHelperAuxF (doc : Doc) (c : Char) (dir : Int) :
    (fuel : Nat) → (lineNum : Nat) → (index : Int) → (count : Nat) → Int × Nat
  | _, lineNum, index, 0 => (index, lineNum)
  | 0, lineNum, index, _ + 1 => (index, lineNum)
  | fuel + 1, lineNum, index, count + 1 =>
    if index = -1 then (index, lineNum)
    else
      let line := lineText doc lineNum
      let index' := if dir > 0 then jsIndexOf line c (index + dir)
        else jsLastIndexOf line c (index + dir)
      if index' = -1 then
        if lineNum < lineCount doc - 1 then
          findHelperAuxF doc c dir fuel (lineNum + 1) 0 (count + 1)
        else (-1, lineNum)
      else
        findHelperAuxF doc c dir fuel lineNum index' count

/-- The `findHelper` loop with sufficient fuel: every iteration either
decrements `count` or advances `lineNum` (which never passes
`lineCount - 1`), so `count + lineCount` iterations always suffice
(proved in `findHelperAuxF_stable`). -/
def findHelperAux (doc : Doc) (c : Char) (dir : Int)
    (lineNum : Nat) (index : Int) (count : Nat) : Int × Nat :=
  findHelperAuxF doc c dir (count + lineCount doc) lineNum index count

/-- `findHelper(char, count, direction)`. -/
def findHelper (doc : Doc) (p : Pos) (c : Char) (count : Nat) (dir : Int) : Option Pos :=
  let r := findHelperAux doc c dir p.line (p.character : Int) count
  if r.1 > -1 then some ⟨r.2, r.1.toNat⟩ else none

/-- `findForwards(char, count)`. -/
def findForwards (doc : Doc) (p : Pos) (c : Char) (count : Nat) : Option Pos :=
  findHelper doc p c count 1

/-- `findBackwards(char, count)`. -/
def findBackwards (doc : Doc) (p : Pos) (c : Char) (count : Nat) : Option Pos :=
  findHelper doc p c count (-1)

/-- `tilForwards(char, count)`: one character before the found one. -/
def tilForwards (doc : Doc) (p : Pos) (c : Char) (count : Nat) : Option Pos :=
  match findHelper doc p c count 1 with
  | some q => some ⟨q.line, q.character - 1⟩
  | none => none

/-- `tilBackwards(char, count)`: one character after the found one. -/
def tilBackwards (doc : Doc) (p : Pos) (c : Char) (count : Nat) : Option Pos :=
  match findHelper doc p c count (-1) with
  | some q => some ⟨q.line, q.character + 1⟩
  | none => none

/-! ### Word motions (`getWordLeftWithRegex` / `getWordRightWithRegex`) -/

/-- The static `getWordLeftWithRegex(text, pos, regex, forceFirst,
inclusive)`: the last boundary of the line that is strictly (or, when
`inclusive`, weakly) before `pos`, any boundary at all when
`forceFirst`. -/
def getWordLeftOnLine (text : List Char) (pos : Nat) (m : Matcher)
    (forceFirst inclusive : Bool) : Option Nat :=
  (getAllPositions m text).reverse.find?
    (fun index => (index < pos ∧ ¬ inclusive) ∨ (index ≤ pos ∧ inclusive) ∨ forceFirst)

/-- The line loop of the instance method `getWordLeftWithRegex`:
scan line `cur` downwards to line 0; `forceFirst` on every line other
than the starting one; fall back to the document begin. -/
def wordLeftAux (doc : Doc) (m : Matcher) (p : Pos) (inclusive : Bool) : Nat → Pos
  | 0 =>
    match getWordLeftOnLine (lineText doc 0) p.character m (decide (0 ≠ p.line)) inclusive with
    | some ch => ⟨0, ch⟩
    | none => ⟨0, 0⟩
  | cur + 1 =>
    match getWordLeftOnLine (lineText doc (cur + 1)) p.character m
        (decide (cur + 1 ≠ p.line)) inclusive with
    | some ch => ⟨cur + 1, ch⟩
    | none => wordLeftAux doc m p inclusive cur

/-- `getWordLeftWithRegex(regex, inclusive)`. -/
def getWordLeftWithRegex (doc : Doc) (m : Matcher) (p : Pos) (inclusive : Bool) : Pos :=
  wordLeftAux doc m p inclusive p.line

/-- The line loop of `getWordRightWithRegex`: scan line `cur` upwards to
the last line; on another line any boundary qualifies; fall back to the
line end of the last line. -/
def wordRightAuxF (doc : Doc) (m : Matcher) (p : Pos) (inclusive : Bool) :
    Nat → Nat → Pos
  | 0, _ => getLineEnd doc ⟨lineCount doc - 1, 0⟩
  | fuel + 1, cur =>
    if cur < lineCount doc then
      match (getAllPositions m (lineText doc cur)).find?
          (fun index => (index > p.character ∧ ¬ inclusive) ∨
            (index ≥ p.character ∧ inclusive) ∨ cur ≠ p.line) with
      | some ch => ⟨cur, ch⟩
      | none => wordRightAuxF doc m p inclusive fuel (cur + 1)
    else getLineEnd doc ⟨lineCount doc - 1, 0⟩

/-- The line loop of `getWordRightWithRegex` with its exact fuel
(`lineCount - cur` iterations reach the last line; at fuel 0 the line
index is past the last line and the loop's fallback is returned). -/
def wordRightAux (doc : Doc) (m : Matcher) (p : Pos) (inclusive : Bool)
    (cur : Nat) : Pos :=
  wordRightAuxF doc m p inclusive (lineCount doc - cur) cur

/-- `getWordRightWithRegex(regex, inclusive)`. -/
def getWordRightWithRegex (doc : Doc) (m : Matcher) (p : Pos) (inclusive : Bool) : Pos :=
  wordRightAux doc m p inclusive p.line

/-! ### Paragraph and sentence motions -/

/-- `isLineBlank(trimWhite = false)` as used by
`getCurrentParagraphEnd()`: the line text is the empty string. -/
def isLineBlankF (doc : Doc) (p : Pos) : Bool := lineText doc p.line = []

/-- `TextEditor.isLastLine` (external TextSource; modelled from the
spec: the line index equals `lineCount - 1`). -/
def isLastLine (doc : Doc) (p : Pos) : Bool := p.line = lineCount doc - 1

/-- First loop of `getCurrentParagraphEnd` (fuelled: the loop advances
one line per iteration and stops at the last line, so `lineCount`
iterations always suffice for an in-range position): while the line is
blank and not the last, go down (skip leading blank lines). -/
def skipBlanksDownF (doc : Doc) : Nat → Pos → Pos
  | 0, p => p
  | fuel + 1, p =>
    if isLineBlankF doc p ∧ ¬ isLastLine doc p then
      skipBlanksDownF doc fuel (getDown doc p 0)
    else p

/-- The first loop of `getCurrentParagraphEnd` with its sufficient
fuel. -/
def skipBlanksDown (doc : Doc) (p : Pos) : Pos :=
  skipBlanksDownF doc (lineCount doc) p

/-- Going down from a line strictly before the last one advances the
line index by one. -/
theorem getDown_line_succ (doc : Doc) (p : Pos) (h : p.line < lineCount doc - 1) :
    (getDown doc p 0).line = p.line + 1 := by
  have hlc : 0 < lineCount doc := by omega
  simp only [getDown, getDocumentEnd, lineCount] at *
  rw [if_pos (by rw [if_pos hlc]; omega)]

/-- Second loop of `getCurrentParagraphEnd` (fuelled like the first):
while the line is not blank and before the last line, go down. -/
def advanceParaF (doc : Doc) : Nat → Pos → Pos
  | 0, p => p
  | fuel + 1, p =>
    if ¬ isLineBlankF doc p ∧ p.line < lineCount doc - 1 then
      advanceParaF doc fuel (getDown doc p 0)
    else p

/-- The second loop of `getCurrentParagraphEnd` with its sufficient
fuel. -/
def advancePara (doc : Doc) (p : Pos) : Pos :=
  advanceParaF doc (lineCount doc) p

/-- `getCurrentParagraphEnd(trimWhite = false)` (the instantiation used
by `getCurrentSentenceEndWithRegex`). -/
def getCurrentParagraphEnd (doc : Doc) (p : Pos) : Pos :=
  getLineEnd doc (advancePara doc (skipBlanksDown doc p))

/-- The within-line qualification test shared by the sentence/word
searches: a boundary strictly (or, when `inclusive`, weakly) after the
cursor, or any boundary on a line other than the starting one. -/
def qualifiesRight (p : Pos) (inclusive : Bool) (cur : Nat) (index : Nat) : Bool :=
  (index > p.character ∧ ¬ inclusive) ∨ (index ≥ p.character ∧ inclusive) ∨ cur ≠ p.line

/-- `getFirstNonWhitespaceInParagraph(paragraphEnd, inclusive)`:
`none` models the `throw new Error('This should never happen...')`
fall-through. -/
def getFirstNonWhitespaceInParagraph (doc : Doc) (p : Pos) (paragraphEnd : Pos)
    (inclusive : Bool) : Option Pos :=
  if lineText doc p.line ≠ [] then some paragraphEnd
  else
    (List.range' p.line (paragraphEnd.line + 1 - p.line)).findSome? fun cur =>
      match (getAllPositions nonWsMatcher (lineText doc cur)).find?
          (qualifiesRight p inclusive cur) with
      | some ch => some ⟨cur, ch⟩
      | none => none

/-- `getCurrentSentenceEndWithRegex(regex, inclusive)`: search each line
of the current paragraph's span for a qualifying sentence-end match;
fall back to `getFirstNonWhitespaceInParagraph`. -/
def getCurrentSentenceEndWithRegex (doc : Doc) (p : Pos) (inclusive : Bool) : Option Pos :=
  let paragraphEnd := getCurrentParagraphEnd doc p
  match (List.range' p.line (paragraphEnd.line + 1 - p.line)).findSome? (fun cur =>
      match (getAllPositions sentenceEndMatcher (lineText doc cur)).find?
          (qualifiesRight p inclusive cur) with
      | some ch => some (⟨cur, ch⟩ : Pos)
      | none => none) with
  | some q => some q
  | none => getFirstNonWhitespaceInParagraph doc p paragraphEnd inclusive

/-- `getCurrentSentenceEnd()`. -/
def getCurrentSentenceEnd (doc : Doc) (p : Pos) : Option Pos :=
  getCurrentSentenceEndWithRegex doc p false

/-! ### Kakoune-mode motions (`kakMotion.ts`) -/

/-- The `vimState` fields the Kakoune motions read. -/
structure KakState where
  cursorStartPosition : Pos
  cursorStopPosition : Pos
deriving DecidableEq, Repr

/-- The newline-skipping loop shared by `MoveWordBegin` and
`ExtendWordBegin` (fuelled: each iteration is at a line end and so
steps down one line, stopping at the document end, so `lineCount`
iterations always suffice for an in-range position): while at a line
end but not at document end, step right through line breaks (including
EOL). -/
def skipLineEndsF (doc : Doc) : Nat → Pos → Pos
  | 0, p => p
  | fuel + 1, p =>
    if isLineEnd doc p ∧ ¬ isAtDocumentEnd doc p then
      skipLineEndsF doc fuel (getRightThroughLineBreaks doc true p)
    else p

/-- The newline-skipping loop with its sufficient fuel. -/
def skipLineEnds (doc : Doc) (p : Pos) : Pos :=
  skipLineEndsF doc (lineCount doc) p

/-- `MoveWordBegin` (`w`): region motion. -/
def moveWordBeginExec (doc : Doc) (m : Matcher) (p : Pos) : MotionResult :=
  let p := skipLineEnds doc p
  .region ⟨p, getWordRightWithRegex doc m p false⟩

/-- `ExtendWordBegin` (`W`): point motion. -/
def extendWordBeginExec (doc : Doc) (m : Matcher) (p : Pos) : MotionResult :=
  let p := getRightThroughLineBreaks doc false p
  let p := skipLineEnds doc p
  .point (getLeftThroughLineBreaks doc true (getWordRightWithRegex doc m p true))

/-- `SelectBuffer` (`%`): region motion over the whole buffer. -/
def selectBufferExec (doc : Doc) (p : Pos) : MotionResult :=
  .region ⟨getDocumentBegin, getDocumentEnd doc⟩

/-- `SelectLine` (`x`): region motion over the current line (advancing
to the next line when the whole line is already selected). -/
def selectLineExec (doc : Doc) (st : KakState) (p : Pos) : MotionResult :=
  let p := if isLineBeginning st.cursorStartPosition ∧ isLineEnd doc st.cursorStopPosition
    then getNextLineBegin doc p else p
  .region ⟨getLineBegin p, getLineEndIncludingEOL doc p⟩

/-- `SelectLineExtend` (`X`). -/
def selectLineExtendExec (doc : Doc) (st : KakState) (p : Pos) : MotionResult :=
  let p := if isLineEnd doc st.cursorStopPosition then getNextLineBegin doc p else p
  if st.cursorStartPosition.line = p.line then
    .region ⟨getLineBegin st.cursorStartPosition, getLineEndIncludingEOL doc p⟩
  else
    .region ⟨st.cursorStartPosition, getLineEndIncludingEOL doc p⟩

/-! ## Properties of the match scan -/

theorem findFromF_adequate (m : Matcher) (s : List Char) :
    ∀ fuel i, s.length + 1 - i ≤ fuel →
      findFromF m s fuel i = findFrom m s i := by
  intro fuel
  induction fuel with
  | zero =>
    intro i hi
    have h0 : s.length + 1 - i = 0 := by omega
    simp only [findFrom, h0, findFromF]
  | succ fuel ih =>
    intro i hi
    by_cases hle : i ≤ s.length
    · have hsplit : s.length + 1 - i = (s.length - i) + 1 := by omega
      simp only [findFrom, hsplit, findFromF, if_pos hle]
      cases m s i with
      | some L => rfl
      | none =>
        have h2 : s.length + 1 - (i + 1) = s.length - i := by omega
        rw [ih (i + 1) (by omega), findFrom, h2]
    · have h0 : s.length + 1 - i = 0 := by omega
      simp only [findFrom, h0, findFromF, if_neg hle]

theorem findFrom_none_of_gt (m : Matcher) (s : List Char) (i : Nat)
    (h : s.length < i) : findFrom m s i = none := by
  have h0 : s.length + 1 - i = 0 := by omega
  simp only [findFrom, h0, findFromF]

theorem findFrom_some_spec (m : Matcher) (s : List Char) :
    ∀ fuel i j L, findFromF m s fuel i = some (j, L) →
      i ≤ j ∧ j ≤ s.length ∧ m s j = some L ∧
        ∀ k, i ≤ k → k < j → m s k = none := by
  intro fuel
  induction fuel with
  | zero => intro i j L h; simp [findFromF] at h
  | succ fuel ih =>
    intro i j L h
    simp only [findFromF] at h
    by_cases hle : i ≤ s.length
    · rw [if_pos hle] at h
      cases hm : m s i with
      | some L' =>
        rw [hm] at h
        obtain ⟨rfl, rfl⟩ : i = j ∧ L' = L := by
          simpa using h
        exact ⟨le_refl _, hle, hm, fun k h1 h2 => absurd (lt_of_le_of_lt h1 h2) (lt_irrefl _)⟩
      | none =>
        rw [hm] at h
        obtain ⟨h1, h2, h3, h4⟩ := ih (i + 1) j L h
        refine ⟨by omega, h2, h3, fun k hk1 hk2 => ?_⟩
        rcases Nat.eq_or_lt_of_le hk1 with rfl | hk
        · exact hm
        · exact h4 k hk hk2
    · rw [if_neg hle] at h
      exact absurd h (by simp)

theorem findFrom_some (m : Matcher) (s : List Char) (i j L : Nat)
    (h : findFrom m s i = some (j, L)) :
    i ≤ j ∧ j ≤ s.length ∧ m s j = some L ∧
      ∀ k, i ≤ k → k < j → m s k = none :=
  findFrom_some_spec m s _ i j L h

theorem findFrom_none_spec (m : Matcher) (s : List Char) :
    ∀ fuel i, s.length + 1 - i ≤ fuel → findFromF m s fuel i = none →
      ∀ k, i ≤ k → k ≤ s.length → m s k = none := by
  intro fuel
  induction fuel with
  | zero => intro i hi h k hk1 hk2; omega
  | succ fuel ih =>
    intro i hi h k hk1 hk2
    simp only [findFromF] at h
    by_cases hle : i ≤ s.length
    · rw [if_pos hle] at h
      cases hm : m s i with
      | some L' => rw [hm] at h; exact absurd h (by simp)
      | none =>
        rw [hm] at h
        rcases Nat.eq_or_lt_of_le hk1 with rfl | hk
        · exact hm
        · exact ih (i + 1) (by omega) h k hk hk2
    · omega

theorem findFrom_none (m : Matcher) (s : List Char) (i : Nat)
    (h : findFrom m s i = none) :
    ∀ k, i ≤ k → k ≤ s.length → m s k = none :=
  findFrom_none_spec m s _ i (le_refl _) h

/-- The scan loop stabilizes: any two sufficient fuels give the same
match list (hence the loop terminates within `length + 1` iterations),
thanks to the forced one-step advance on zero-length matches. -/
theorem scanFuel_stable (m : Matcher) (s : List Char) :
    ∀ fuel₁ fuel₂ i, s.length + 1 - i ≤ fuel₁ → s.length + 1 - i ≤ fuel₂ →
      scanFuel m s fuel₁ i = scanFuel m s fuel₂ i := by
  intro fuel₁
  induction fuel₁ with
  | zero =>
    intro fuel₂ i h1 h2
    have hgt : s.length < i := by omega
    cases fuel₂ with
    | zero => rfl
    | succ fuel₂ => simp [scanFuel, findFrom_none_of_gt m s i hgt]
  | succ fuel₁ ih =>
    intro fuel₂ i h1 h2
    by_cases hgt : s.length < i
    · cases fuel₂ with
      | zero => simp [scanFuel, findFrom_none_of_gt m s i hgt]
      | succ fuel₂ => simp [scanFuel, findFrom_none_of_gt m s i hgt]
    · have hle : i ≤ s.length := by omega
      cases fuel₂ with
      | zero => omega
      | succ fuel₂ =>
        simp only [scanFuel]
        cases hf : findFrom m s i with
        | none => rfl
        | some r =>
          obtain ⟨j, L⟩ := r
          obtain ⟨hij, hjs, _, _⟩ := findFrom_some m s i j L hf
          have hnext : ∀ n, n = (if L = 0 then j + 1 else j + L) →
              s.length + 1 - n ≤ fuel₁ ∧ s.length + 1 - n ≤ fuel₂ := by
            intro n hn
            subst hn
            split <;> omega
          obtain ⟨ha, hb⟩ := hnext _ rfl
          exact congrArg (List.cons (j, L)) (ih fuel₂ _ ha hb)

/-- Claim C3 — for every classifier regex (any matcher) and every line
text, including empty and all-whitespace lines, the
`getAllPositions` / `getAllEndPositions` scan terminates: it reaches a
fixed point within `length + 1` iterations (the zero-length-match guard
forcibly advances the scan index by one, so every iteration strictly
advances), and any larger iteration bound computes the same positions. -/
theorem getAllPositions_scan_terminates (m : Matcher) (s : List Char)
    (fuel : Nat) (h : s.length + 1 ≤ fuel) :
    (scanFuel m s fuel 0).map (·.1) = getAllPositions m s ∧
      ((scanFuel m s fuel 0).filter (fun r => 0 < r.2)).map
        (fun r => r.1 + r.2 - 1) = getAllEndPositions m s := by
  have hstable : scanFuel m s fuel 0 = getAllMatches m s :=
    scanFuel_stable m s fuel (s.length + 1) 0 (by omega) (by omega)
  rw [hstable]
  exact ⟨rfl, rfl⟩

/-- Witness for C3: the scan of the bigword classifier over an
all-whitespace line, run with surplus fuel, yields the same (empty)
position list as the canonical scan, and likewise on the empty line. -/
theorem getAllPositions_scan_terminates_witness :
    ("  ".toList.length + 1 ≤ 17 ∧
      (scanFuel (simpleMatcher []) "  ".toList 17 0).map (·.1) =
        getAllPositions (simpleMatcher []) "  ".toList) ∧
    (([] : List Char).length + 1 ≤ 9 ∧
      (scanFuel (simpleMatcher []) [] 9 0).map (·.1) =
        getAllPositions (simpleMatcher []) []) :=
  ⟨⟨by decide, (getAllPositions_scan_terminates (simpleMatcher []) "  ".toList 17
      (by decide)).1⟩,
   ⟨by decide, (getAllPositions_scan_terminates (simpleMatcher []) [] 9
      (by decide)).1⟩⟩

/-! ## Concrete documents used in the scenario theorems -/

/-- The lines `["abc", "def"]`. -/
def docAbcDef : Doc := [['a', 'b', 'c'], ['d', 'e', 'f']]

/-- The lines `["one", "", "two"]`. -/
def docOneTwo : Doc := [['o', 'n', 'e'], [], ['t', 'w', 'o']]

/-- Whether character index `k` lies inside one of the scan's runs. -/
def coveredBy (runs : List (Nat × Nat)) (k : Nat) : Bool :=
  runs.any fun r => r.1 ≤ k && k < r.1 + r.2

/-! ## Claim C8 — select-whole-buffer scenario -/

/-- Claim C8 counterexample — on the lines `["one", "", "two"]` from
`(0,0)`, `SelectBuffer` does **not** return the region stopping at
`(2,2)`: `getDocumentEnd` places the stop at the line *length* of the
last line, column 3, one past the last character. -/
theorem selectBuffer_stop_counterexample :
    selectBufferExec docOneTwo ⟨0, 0⟩ ≠ .region ⟨⟨0, 0⟩, ⟨2, 2⟩⟩ := by decide

/-- Claim C8 (amended) — on the lines `["one", "", "two"]` from `(0,0)`,
`SelectBuffer` returns the region from `(0,0)` to `(2,3)`, the document
end at the line end (line length) of the last line. -/
theorem selectBuffer_whole_buffer_region :
    selectBufferExec docOneTwo ⟨0, 0⟩ = .region ⟨⟨0, 0⟩, ⟨2, 3⟩⟩ := by decide

/-! ## Claim C9 — findBackwards scenario -/

/-- Claim C9 counterexample — on the lines `["abc", "def"]` from
`(0,2)`, `findBackwards('a', 1)` does **not** return the not-found
sentinel: the `a` at column 0 of the starting line is strictly before
the cursor and is found. -/
theorem findBackwards_sentinel_counterexample :
    findBackwards docAbcDef ⟨0, 2⟩ 'a' 1 ≠ none := by decide

/-- Claim C9 (amended) — on the lines `["abc", "def"]` from `(0,2)`,
`findBackwards('a', 1)` returns `(0,0)`, the occurrence of `a` on the
starting line before the cursor. -/
theorem findBackwards_finds_on_line :
    findBackwards docAbcDef ⟨0, 2⟩ 'a' 1 = some ⟨0, 0⟩ := by decide

/-! ## Claim C5 — sentence end inside the paragraph -/

/-- Claim C5 — evaluation of the code at the failing input: on an
all-blank document (lines `["", ""]`) from `(0,0)`,
`getCurrentSentenceEnd` reaches the
`throw new Error('This should never happen...')` fall-through of
`getFirstNonWhitespaceInParagraph` (modelled `none`) instead of
returning the paragraph's boundary `(1,0)` as the claim (and the
code's own unreachability message) promise. -/
theorem sentence_end_all_blank_throws :
    getCurrentSentenceEnd [[], []] ⟨0, 0⟩ = none ∧
      getCurrentParagraphEnd [[], []] ⟨0, 0⟩ = ⟨1, 0⟩ := by decide

/-! ## Claim C10 — getLeft / getRight clamping -/

/-- Claim C10 counterexample — on the single line `"ab"`, from `(0,0)`,
`getRight(5)` returns `(0,5)`: character 5 is not a valid index of the
2-character line, so `getRight` does not clamp within the line. -/
theorem getRight_exceeds_line_counterexample :
    getRight [['a', 'b']] ⟨0, 0⟩ 5 = ⟨0, 5⟩ ∧
      ¬ (⟨0, 5⟩ : Pos).character < lineLength [['a', 'b']] 0 := by decide

/-- Claim C10 (amended) — `getLeft(count)` clamps within the current
line: it stays on the same line, moves to `character - count` bounded
below by 0, preserves validity of the character index, and is a no-op
at any line beginning (in particular at document begin).  `getRight`
stays on the same line and is a no-op at (or past) the line end, but
otherwise adds `count` to the character without clamping, so the result
may exceed the line's valid indices. -/
theorem getLeft_clamps_getRight_unclamped (doc : Doc) (p : Pos) (count : Nat) :
    ((getLeft p count).line = p.line ∧
      (getLeft p count).character = p.character - count ∧
      (getLeft p count).character ≤ p.character ∧
      (p.character = 0 → getLeft p count = p) ∧
      (p.character < lineLength doc p.line →
        (getLeft p count).character < lineLength doc p.line)) ∧
    ((getRight doc p count).line = p.line ∧
      (isLineEnd doc p = true → getRight doc p count = p) ∧
      (isLineEnd doc p = false →
        (getRight doc p count).character = p.character + count)) := by
  refine ⟨⟨?_, ?_, ?_, ?_, ?_⟩, ⟨?_, ?_, ?_⟩⟩ <;>
    simp only [getLeft, getRight] <;> intros <;>
    first
      | (split <;> simp_all <;> omega)
      | (split <;> simp_all)
      | simp_all
      | omega

/-- Witness for C10 (amended): on the line `"ab"` at `(0,1)`,
`getLeft 1` lands on `(0,0)` (same line, clamped, still valid) and
`getRight 1` lands on `(0,2)` (past the last valid index 1). -/
theorem getLeft_clamps_getRight_unclamped_witness :
    (getLeft ⟨0, 1⟩ 1).line = 0 ∧ (getLeft ⟨0, 1⟩ 1).character = 0 ∧
      ((0 : Nat) = 0 → getLeft ⟨0, 0⟩ 1 = ⟨0, 0⟩) ∧
      (isLineEnd [['a', 'b']] ⟨0, 1⟩ = false →
        (getRight [['a', 'b']] ⟨0, 1⟩ 1).character = 2) :=
  ⟨(getLeft_clamps_getRight_unclamped [['a', 'b']] ⟨0, 1⟩ 1).1.1,
   (getLeft_clamps_getRight_unclamped [['a', 'b']] ⟨0, 1⟩ 1).1.2.1,
   fun _ => (getLeft_clamps_getRight_unclamped [['a', 'b']] ⟨0, 0⟩ 1).1.2.2.2.1 rfl,
   (getLeft_clamps_getRight_unclamped [['a', 'b']] ⟨0, 1⟩ 1).2.2.2⟩

/-! ## Claim C6 — point-motion vs region-motion pairing -/

/-- Claim C6 counterexample — `SelectLineExtend` (`X`) does **not**
return a single `Position`: on the lines `["abc", "def"]` with anchor
`(0,1)`, cursor `(0,0)`, it returns the region from `(0,0)` to `(0,4)`
(note the anchor `(0,1)` is also not preserved: it is snapped to its
line beginning). -/
theorem selectLineExtend_region_counterexample :
    isPointResult (selectLineExtendExec docAbcDef ⟨⟨0, 1⟩, ⟨0, 0⟩⟩ ⟨0, 0⟩) = false ∧
      selectLineExtendExec docAbcDef ⟨⟨0, 1⟩, ⟨0, 0⟩⟩ ⟨0, 0⟩ =
        .region ⟨⟨0, 0⟩, ⟨0, 4⟩⟩ := by decide

/-- Claim C6 (amended) — `SelectLine` (`x`) and `MoveWordBegin` (`w`)
are region motions returning `{start, stop}` regions and
`ExtendWordBegin` (`W`) is a point motion returning a single
`Position`, but `SelectLineExtend` (`X`) is **also** a region motion:
it returns a region whose start keeps the anchor
(`cursorStartPosition`) when the anchor's line differs from the target
line and snaps the anchor to its line beginning when the lines are
equal, rather than returning a single `Position`. -/
theorem kak_motion_pairing (doc : Doc) (m : Matcher) (st : KakState) (p : Pos) :
    isPointResult (selectLineExec doc st p) = false ∧
      isPointResult (moveWordBeginExec doc m p) = false ∧
      isPointResult (extendWordBeginExec doc m p) = true ∧
      isPointResult (selectLineExtendExec doc st p) = false ∧
      (∀ q, (if isLineEnd doc st.cursorStopPosition then getNextLineBegin doc p
          else p) = q →
        st.cursorStartPosition.line ≠ q.line →
        selectLineExtendExec doc st p =
          .region ⟨st.cursorStartPosition, getLineEndIncludingEOL doc q⟩) := by
  refine ⟨rfl, rfl, rfl, ?_, ?_⟩
  · simp only [selectLineExtendExec]
    split <;> split <;> rfl
  · intro q hq hne
    simp only [selectLineExtendExec, hq, if_neg hne]

/-! ## Properties of the find-character motions -/

theorem jsIndexOf_hit (s : List Char) (c : Char) (f : Int)
    (h : jsIndexOf s c f ≠ -1) :
    s.get? (jsIndexOf s c f).toNat = some c := by
  unfold jsIndexOf at *
  cases hh : (((List.range s.length).drop f.toNat).filter
      fun (k : Nat) => s.get? k = some c).head? with
  | none => rw [hh] at h; simp at h
  | some k =>
    have hk := List.mem_of_mem_head? hh
    have h2 := (List.mem_filter.mp hk).2
    have htn : ((k : Int)).toNat = k := by omega
    show s.get? ((k : Int)).toNat = some c
    rw [htn]
    simpa using h2

theorem jsLastIndexOf_hit (s : List Char) (c : Char) (f : Int)
    (h : jsLastIndexOf s c f ≠ -1) :
    s.get? (jsLastIndexOf s c f).toNat = some c := by
  unfold jsLastIndexOf at *
  cases hh : (((List.range s.length).filter (fun (k : Nat) => k ≤ f.toNat)).filter
      fun (k : Nat) => s.get? k = some c).getLast? with
  | none => rw [hh] at h; simp at h
  | some k =>
    have hk := List.mem_of_mem_getLast? hh
    have h2 := (List.mem_filter.mp hk).2
    have htn : ((k : Int)).toNat = k := by omega
    show s.get? ((k : Int)).toNat = some c
    rw [htn]
    simpa using h2

theorem jsIndexOf_absent (s : List Char) (c : Char) (f : Int)
    (h : c ∉ s) : jsIndexOf s c f = -1 := by
  unfold jsIndexOf
  cases hh : (((List.range s.length).drop f.toNat).filter
      fun (k : Nat) => s.get? k = some c).head? with
  | none => rfl
  | some k =>
    have hk := List.mem_of_mem_head? (by rw [hh]; exact Option.mem_some_iff.mpr rfl)
    have h2 := (List.mem_filter.mp hk).2
    have h3 : s.get? k = some c := by simpa using h2
    exact absurd (List.get?_mem h3) h

theorem jsLastIndexOf_absent (s : List Char) (c : Char) (f : Int)
    (h : c ∉ s) : jsLastIndexOf s c f = -1 := by
  unfold jsLastIndexOf
  cases hh : (((List.range s.length).filter (fun (k : Nat) => k ≤ f.toNat)).filter
      fun (k : Nat) => s.get? k = some c).getLast? with
  | none => rfl
  | some k =>
    have hk := List.mem_of_mem_getLast? hh
    have h2 := (List.mem_filter.mp hk).2
    have h3 : s.get? k = some c := by simpa using h2
    exact absurd (List.get?_mem h3) h

/-- The `findHelper` loop never moves to an earlier line, and it leaves
the line index in range whenever it started in range (the line-advance
branch stops before `lineCount - 1`). -/
theorem findHelperAuxF_line_mono (doc : Doc) (c : Char) (dir : Int) :
    ∀ fuel ln idx cnt,
      ln ≤ (findHelperAuxF doc c dir fuel ln idx cnt).2 ∧
        ((findHelperAuxF doc c dir fuel ln idx cnt).2 = ln ∨
          (findHelperAuxF doc c dir fuel ln idx cnt).2 ≤ lineCount doc - 1) := by
  intro fuel
  induction fuel with
  | zero =>
    intro ln idx cnt
    cases cnt <;> simp [findHelperAuxF]
  | succ fuel ih =>
    intro ln idx cnt
    cases cnt with
    | zero => simp [findHelperAuxF]
    | succ cnt =>
      simp only [findHelperAuxF]
      by_cases hidx : idx = -1
      · rw [if_pos hidx]; simp
      · rw [if_neg hidx]
        set index' := if dir > 0 then jsIndexOf (lineText doc ln) c (idx + dir)
          else jsLastIndexOf (lineText doc ln) c (idx + dir) with hdef
        by_cases hm : index' = -1
        · rw [if_pos hm]
          by_cases hlt : ln < lineCount doc - 1
          · rw [if_pos hlt]
            obtain ⟨ih1, ih2⟩ := ih (ln + 1) 0 (cnt + 1)
            exact ⟨by omega, by omega⟩
          · rw [if_neg hlt]; simp
        · rw [if_neg hm]
          exact ih ln index' cnt

/-- Whenever the `findHelper` loop ends with a non-negative index after
actually searching (positive count, non-sentinel start, enough fuel),
that index holds the sought character on the final line. -/
theorem findHelperAuxF_char (doc : Doc) (c : Char) (dir : Int) :
    ∀ fuel ln idx cnt, 1 ≤ cnt → idx ≠ -1 →
      cnt + (lineCount doc - ln) ≤ fuel →
      (findHelperAuxF doc c dir fuel ln idx cnt).1 = -1 ∨
        (lineText doc (findHelperAuxF doc c dir fuel ln idx cnt).2).get?
          (findHelperAuxF doc c dir fuel ln idx cnt).1.toNat = some c := by
  intro fuel
  induction fuel with
  | zero => intro ln idx cnt h1 _ hb; omega
  | succ fuel ih =>
    intro ln idx cnt h1 hidx hb
    cases cnt with
    | zero => omega
    | succ cnt =>
      simp only [findHelperAuxF]
      rw [if_neg hidx]
      set index' := if dir > 0 then jsIndexOf (lineText doc ln) c (idx + dir)
        else jsLastIndexOf (lineText doc ln) c (idx + dir) with hdef
      by_cases hm : index' = -1
      · rw [if_pos hm]
        split
        · rename_i hlt
          exact ih (ln + 1) 0 (cnt + 1) (by omega) (by omega) (by omega)
        · left; rfl
      · rw [if_neg hm]
        have hhit : (lineText doc ln).get? index'.toNat = some c := by
          rw [hdef]
          split
          · exact jsIndexOf_hit _ c _ (by rw [hdef] at hm; revert hm; split <;> simp_all)
          · exact jsLastIndexOf_hit _ c _ (by rw [hdef] at hm; revert hm; split <;> simp_all)
        cases cnt with
        | zero =>
          right
          rw [show findHelperAuxF doc c dir fuel ln index' 0 = (index', ln) from
            by cases fuel <;> rfl]
          exact hhit
        | succ cnt' => exact ih ln index' (cnt' + 1) (by omega) hm (by omega)

/-- Any position returned by the `findHelper` loop (either direction)
is on the starting line or a later in-range line and holds the sought
character. -/
theorem findHelper_spec (doc : Doc) (p : Pos) (c : Char) (cnt : Nat) (dir : Int)
    (h1 : 1 ≤ cnt) (h2 : p.line < lineCount doc) :
    ∀ q, findHelper doc p c cnt dir = some q →
      p.line ≤ q.line ∧ q.line < lineCount doc ∧ charAt doc q = some c := by
  intro q hq
  simp only [findHelper, findHelperAux] at hq
  split at hq
  case isFalse => exact absurd hq (by simp)
  case isTrue hpos =>
    obtain rfl : (⟨_, _⟩ : Pos) = q := by simpa using hq
    obtain ⟨hm1, hm2⟩ := findHelperAuxF_line_mono doc c dir (cnt + lineCount doc)
      p.line (p.character : Int) cnt
    have hchar := findHelperAuxF_char doc c dir (cnt + lineCount doc)
      p.line (p.character : Int) cnt h1 (by omega) (by omega)
    refine ⟨hm1, ?_, ?_⟩
    · show (findHelperAuxF doc c dir (cnt + lineCount doc) p.line
        (p.character : Int) cnt).2 < lineCount doc
      omega
    · rcases hchar with hchar | hchar
      · omega
      · exact hchar

/-- Claim C1 (amended) — `findForwards` scans the rest of the starting
line and then subsequent lines, stopping at document end; and
`findBackwards`, when the starting line is exhausted, **also** continues
onto subsequent lines (searching backward within each) rather than
staying on the starting line: both only ever return a position on the
starting line or a later in-range line, and that position holds the
sought character. -/
theorem find_char_line_monotone (doc : Doc) (p : Pos) (c : Char) (cnt : Nat)
    (h1 : 1 ≤ cnt) (h2 : p.line < lineCount doc) :
    (∀ q, findForwards doc p c cnt = some q →
      p.line ≤ q.line ∧ q.line < lineCount doc ∧ charAt doc q = some c) ∧
    (∀ q, findBackwards doc p c cnt = some q →
      p.line ≤ q.line ∧ q.line < lineCount doc ∧ charAt doc q = some c) :=
  ⟨findHelper_spec doc p c cnt 1 h1 h2, findHelper_spec doc p c cnt (-1) h1 h2⟩

/-- Witness for C1 (amended): on the lines `["abc", "def"]` from
`(0,2)` with count 1, `findBackwards` of `d` lands at `(1,0)` — a later
line, which indeed holds `d` — and the theorem's bounds hold there. -/
theorem find_char_line_monotone_witness :
    (1 ≤ 1 ∧ (0 : Nat) < lineCount docAbcDef) ∧
      ((0 : Nat) ≤ 1 ∧ 1 < lineCount docAbcDef ∧
        charAt docAbcDef ⟨1, 0⟩ = some (Char.ofNat 100)) :=
  ⟨⟨by decide, by decide⟩,
    (find_char_line_monotone docAbcDef ⟨0, 2⟩ (Char.ofNat 100) 1
      (by decide) (by decide)).2 ⟨1, 0⟩ (by decide)⟩

/-- With the sought character absent from the current line and every
later line, the `findHelper` loop always ends with the sentinel index
`-1`. -/
theorem findHelperAuxF_absent (doc : Doc) (c : Char) (dir : Int) :
    ∀ fuel ln idx cnt, (∀ ℓ, ln ≤ ℓ → c ∉ lineText doc ℓ) →
      1 ≤ cnt → idx ≠ -1 →
      lineCount doc - ln + 1 ≤ fuel →
      (findHelperAuxF doc c dir fuel ln idx cnt).1 = -1 := by
  intro fuel
  induction fuel with
  | zero => intro ln idx cnt habs h1 hidx hfuel; omega
  | succ fuel ih =>
    intro ln idx cnt habs h1 hidx hfuel
    cases cnt with
    | zero => omega
    | succ cnt =>
      simp only [findHelperAuxF]
      rw [if_neg hidx]
      have hm : (if dir > 0 then jsIndexOf (lineText doc ln) c (idx + dir)
          else jsLastIndexOf (lineText doc ln) c (idx + dir)) = -1 := by
        split
        · exact jsIndexOf_absent _ c _ (habs ln (le_refl ln))
        · exact jsLastIndexOf_absent _ c _ (habs ln (le_refl ln))
      rw [hm]
      rw [if_pos rfl]
      by_cases hlt : ln < lineCount doc - 1
      · rw [if_pos hlt]
        exact ih (ln + 1) 0 (cnt + 1) (fun ℓ hℓ => habs ℓ (by omega))
          (by omega) (by omega) (by omega)
      · rw [if_neg hlt]

/-- Claim C7 (amended) — when the character occurs **nowhere on the
starting line or any subsequent line** (the lines the motions scan, for
both directions), `findForwards`, `findBackwards`, `tilForwards` and
`tilBackwards` all return the not-found sentinel `null` (`none`), and
never raise (they are total functions into `Option`).  Merely having
fewer than `count` occurrences there does **not** suffice: backward
search wraps onto subsequent lines and its `lastIndexOf(char, -1)` call
re-counts a column-0 occurrence of a wrapped line until the count is
exhausted (see the counterexample). -/
theorem find_absent_char_returns_none (doc : Doc) (p : Pos) (c : Char)
    (cnt : Nat) (h1 : 1 ≤ cnt)
    (habs : ∀ ℓ, ℓ < lineCount doc → p.line ≤ ℓ → c ∉ lineText doc ℓ) :
    findForwards doc p c cnt = none ∧ findBackwards doc p c cnt = none ∧
      tilForwards doc p c cnt = none ∧ tilBackwards doc p c cnt = none := by
  have habs' : ∀ ℓ, p.line ≤ ℓ → c ∉ lineText doc ℓ := by
    intro ℓ hpℓ
    by_cases hℓ : ℓ < lineCount doc
    · exact habs ℓ hℓ hpℓ
    · have hnone : doc.get? ℓ = none := List.get?_eq_none.mpr (by
        simp only [lineCount] at hℓ; omega)
      unfold lineText
      rw [hnone]
      simp
  have key : ∀ dir : Int, findHelper doc p c cnt dir = none := by
    intro dir
    have hres := findHelperAuxF_absent doc c dir (cnt + lineCount doc)
      p.line (p.character : Int) cnt habs' h1 (by omega) (by omega)
    simp only [findHelper, findHelperAux]
    rw [if_neg (by omega)]
  refine ⟨key 1, key (-1), ?_, ?_⟩ <;>
    simp only [tilForwards, tilBackwards, key 1, key (-1)]

/-- Witness for C7 (amended): on the lines `["zb", "ab"]` from `(1,0)`,
the character `z` occurs on no line at or after the starting line
(it does occur on the earlier line 0), and all four find/til motions
with count 1 return `none`. -/
theorem find_absent_char_returns_none_witness :
    ((1 : Nat) ≤ 1 ∧ ∀ ℓ, ℓ < lineCount [['z', 'b'], ['a', 'b']] →
        1 ≤ ℓ → Char.ofNat 122 ∉ lineText [['z', 'b'], ['a', 'b']] ℓ) ∧
      (findForwards [['z', 'b'], ['a', 'b']] ⟨1, 0⟩ (Char.ofNat 122) 1 = none ∧
        findBackwards [['z', 'b'], ['a', 'b']] ⟨1, 0⟩ (Char.ofNat 122) 1 = none ∧
        tilForwards [['z', 'b'], ['a', 'b']] ⟨1, 0⟩ (Char.ofNat 122) 1 = none ∧
        tilBackwards [['z', 'b'], ['a', 'b']] ⟨1, 0⟩ (Char.ofNat 122) 1 = none) :=
  ⟨⟨by decide, by decide⟩,
    find_absent_char_returns_none [['z', 'b'], ['a', 'b']] ⟨1, 0⟩ (Char.ofNat 122) 1
      (by decide) (by decide)⟩

/-- Claim C7 counterexample — fewer than `count` occurrences within the
motion's search space does *not* make the find motions return the
sentinel.  On `["abc", "dxy"]` from `(0,2)`: the starting line holds no
`d` at all, yet `findBackwards('d', 1)` wraps to the next line and
returns `(1,0)`; worse, the whole document holds exactly **one** `d`,
yet `findBackwards('d', 2)` still returns `(1,0)` — the wrapped
`lastIndexOf('d', -1)` re-counts the column-0 occurrence a second
time. -/
theorem findBackwards_not_found_counterexample :
    ('d' ∉ "abc".toList ∧
      findBackwards [['a', 'b', 'c'], ['d', 'x', 'y']] ⟨0, 2⟩ 'd' 1 =
        some ⟨1, 0⟩) ∧
    ("abc".toList.count 'd' + "dxy".toList.count 'd' = 1 ∧
      findBackwards [['a', 'b', 'c'], ['d', 'x', 'y']] ⟨0, 2⟩ 'd' 2 =
        some ⟨1, 0⟩) := by decide

/-- Claim C1 counterexample — `findBackwards` does **not** search only
the starting line: on the lines `["abc", "def"]` from `(0,2)`,
`findBackwards('d', 1)` returns `(1,0)` — a position on a *later* line
(the loop's line-advance branch never checks the direction). -/
theorem findBackwards_wraps_counterexample :
    findBackwards docAbcDef ⟨0, 2⟩ 'd' 1 = some ⟨1, 0⟩ ∧ (1 : Nat) ≠ 0 := by decide

/-! ## Claim C4 — cross-line word-boundary search -/

/-- The first line at or after `ℓ` holding any boundary, with that
line's first boundary (fuelled upward line search). -/
def firstRightF (doc : Doc) (m : Matcher) : Nat → Nat → Option (Nat × Nat)
  | 0, _ => none
  | fuel + 1, ℓ =>
    if ℓ < lineCount doc then
      match (getAllPositions m (lineText doc ℓ)).head? with
      | some ch => some (ℓ, ch)
      | none => firstRightF doc m fuel (ℓ + 1)
    else none

/-- The first line at or after `ℓ` holding any boundary, with that
line's first boundary. -/
def firstBoundaryRight (doc : Doc) (m : Matcher) (ℓ : Nat) : Option (Nat × Nat) :=
  firstRightF doc m (lineCount doc - ℓ) ℓ

/-- The first line at or below `cur` (scanning downward) holding any
boundary, with that line's last boundary. -/
def firstBoundaryLeft (doc : Doc) (m : Matcher) : Nat → Option (Nat × Nat)
  | 0 => (getAllPositions m (lineText doc 0)).getLast?.map (fun ch => (0, ch))
  | cur + 1 =>
    match (getAllPositions m (lineText doc (cur + 1))).getLast? with
    | some ch => some (cur + 1, ch)
    | none => firstBoundaryLeft doc m cur

theorem find?_eq_head?_of_all {α : Type} (l : List α) (p : α → Bool)
    (h : ∀ x ∈ l, p x = true) : l.find? p = l.head? := by
  cases l with
  | nil => rfl
  | cons a l => simp [List.find?, h a (List.mem_cons_self a l)]

/-- Past the starting line, the `getWordRightWithRegex` loop returns
the first boundary of the first line that has one, or the document-end
fallback. -/
theorem wordRightAuxF_beyond (doc : Doc) (m : Matcher) (p : Pos) (inc : Bool) :
    ∀ fuel cur, p.line < cur →
      wordRightAuxF doc m p inc fuel cur =
        (match firstRightF doc m fuel cur with
          | some (ℓ, ch) => (⟨ℓ, ch⟩ : Pos)
          | none => getLineEnd doc ⟨lineCount doc - 1, 0⟩) := by
  intro fuel
  induction fuel with
  | zero => intro cur hcur; rfl
  | succ fuel ih =>
    intro cur hcur
    simp only [wordRightAuxF, firstRightF]
    by_cases hlt : cur < lineCount doc
    · rw [if_pos hlt, if_pos hlt]
      have hall : ∀ x ∈ getAllPositions m (lineText doc cur),
          (decide ((x > p.character ∧ ¬ inc = true) ∨
            (x ≥ p.character ∧ inc = true) ∨ cur ≠ p.line)) = true := by
        intro x _
        simp only [decide_eq_true_eq]
        right; right; omega
      rw [find?_eq_head?_of_all _ _ hall]
      cases hh : (getAllPositions m (lineText doc cur)).head? with
      | some ch => rfl
      | none => exact ih (cur + 1) (by omega)
    · rw [if_neg hlt, if_neg hlt]

/-- Below the starting line, the `getWordLeftWithRegex` loop returns
the last boundary of the first line (scanning downward) that has one,
or the document-begin fallback. -/
theorem wordLeftAux_below (doc : Doc) (m : Matcher) (p : Pos) (inc : Bool) :
    ∀ cur, cur < p.line →
      wordLeftAux doc m p inc cur =
        (match firstBoundaryLeft doc m cur with
          | some (ℓ, ch) => (⟨ℓ, ch⟩ : Pos)
          | none => ⟨0, 0⟩) := by
  intro cur
  induction cur with
  | zero =>
    intro hcur
    simp only [wordLeftAux, firstBoundaryLeft, getWordLeftOnLine]
    have hall : ∀ x ∈ (getAllPositions m (lineText doc 0)).reverse,
        (decide ((x < p.character ∧ ¬ inc = true) ∨
          (x ≤ p.character ∧ inc = true) ∨ decide ((0 : Nat) ≠ p.line) = true)) = true := by
      intro x _
      simp only [decide_eq_true_eq]
      right; right
      omega
    rw [find?_eq_head?_of_all _ _ hall, List.head?_reverse]
    cases hh : (getAllPositions m (lineText doc 0)).getLast? with
    | some ch => rfl
    | none => rfl
  | succ cur ih =>
    intro hcur
    simp only [wordLeftAux, firstBoundaryLeft, getWordLeftOnLine]
    have hall : ∀ x ∈ (getAllPositions m (lineText doc (cur + 1))).reverse,
        (decide ((x < p.character ∧ ¬ inc = true) ∨
          (x ≤ p.character ∧ inc = true) ∨ decide (cur + 1 ≠ p.line) = true)) = true := by
      intro x _
      simp only [decide_eq_true_eq]
      right; right
      omega
    rw [find?_eq_head?_of_all _ _ hall, List.head?_reverse]
    cases hh : (getAllPositions m (lineText doc (cur + 1))).getLast? with
    | some ch => rfl
    | none => exact ih (by omega)

/-- Claim C4 — for every word-class motion (the matcher parametrizes
all four classifiers) and every document: when the starting line has no
qualifying boundary, the scan continues onto subsequent lines
(rightward) or preceding lines (leftward); the first boundary found on
any other line is accepted regardless of the inclusive flag (the result
below does not depend on it); and when the whole document is exhausted
without a boundary, the leftward motion returns `(0,0)` and the
rightward motion returns the line end of the last line (the document
end). -/
theorem word_motion_cross_line (doc : Doc) (m : Matcher) (p : Pos) (inc : Bool) :
    ((∀ idx ∈ getAllPositions m (lineText doc p.line), idx < p.character) →
      getWordRightWithRegex doc m p inc =
        (match firstBoundaryRight doc m (p.line + 1) with
          | some (ℓ, ch) => (⟨ℓ, ch⟩ : Pos)
          | none => getLineEnd doc ⟨lineCount doc - 1, 0⟩)) ∧
    ((∀ idx ∈ getAllPositions m (lineText doc p.line), p.character < idx) →
      getWordLeftWithRegex doc m p inc =
        (match (if p.line = 0 then none else firstBoundaryLeft doc m (p.line - 1)) with
          | some (ℓ, ch) => (⟨ℓ, ch⟩ : Pos)
          | none => ⟨0, 0⟩)) := by
  constructor
  · intro hR
    simp only [getWordRightWithRegex, wordRightAux, firstBoundaryRight]
    by_cases hlt : p.line < lineCount doc
    · have hfuel : lineCount doc - p.line = (lineCount doc - (p.line + 1)) + 1 := by omega
      rw [hfuel]
      simp only [wordRightAuxF]
      rw [if_pos hlt]
      have hnone : (getAllPositions m (lineText doc p.line)).find?
          (fun index => decide ((index > p.character ∧ ¬ inc = true) ∨
            (index ≥ p.character ∧ inc = true) ∨ p.line ≠ p.line)) = none := by
        rw [List.find?_eq_none]
        intro x hx hpred
        simp only [decide_eq_true_eq] at hpred
        have hx' := hR x hx
        rcases hpred with ⟨h1, _⟩ | ⟨h1, _⟩ | hC
        · omega
        · omega
        · exact hC rfl
      rw [hnone]
      exact wordRightAuxF_beyond doc m p inc _ (p.line + 1) (by omega)
    · have h0 : lineCount doc - p.line = 0 := by omega
      have h0' : lineCount doc - (p.line + 1) = 0 := by omega
      rw [h0, h0']
      rfl
  · intro hL
    simp only [getWordLeftWithRegex]
    cases hp : p.line with
    | zero =>
      rw [hp] at hL
      simp only [wordLeftAux, getWordLeftOnLine]
      have hnone : ((getAllPositions m (lineText doc 0)).reverse).find?
          (fun index => decide ((index < p.character ∧ ¬ inc = true) ∨
            (index ≤ p.character ∧ inc = true) ∨ decide ((0 : Nat) ≠ p.line) = true)) = none := by
        rw [List.find?_eq_none]
        intro x hx hpred
        simp only [decide_eq_true_eq] at hpred
        have hx' := hL x (List.mem_reverse.mp hx)
        rcases hpred with ⟨h1, _⟩ | ⟨h1, _⟩ | hC
        · omega
        · omega
        · rw [hp] at hC; simp at hC
      rw [hnone]
      rfl
    | succ n =>
      rw [hp] at hL
      simp only [wordLeftAux, getWordLeftOnLine]
      have hnone : ((getAllPositions m (lineText doc (n + 1))).reverse).find?
          (fun index => decide ((index < p.character ∧ ¬ inc = true) ∨
            (index ≤ p.character ∧ inc = true) ∨ decide (n + 1 ≠ p.line) = true)) = none := by
        rw [List.find?_eq_none]
        intro x hx hpred
        simp only [decide_eq_true_eq] at hpred
        have hx' := hL x (List.mem_reverse.mp hx)
        rcases hpred with ⟨h1, _⟩ | ⟨h1, _⟩ | hC
        · omega
        · omega
        · rw [hp] at hC; simp at hC
      rw [hnone]
      rw [wordLeftAux_below doc m p inc n (by omega)]
      rfl

/-- Witness for C4: on the lines `["  ", "ab"]` from `(0,0)` (the
starting line is all whitespace, so it has no boundary at all), the
rightward word motion lands on the first boundary of the next line,
`(1,0)`, and the leftward word motion falls back to the document begin
`(0,0)`. -/
theorem word_motion_cross_line_witness :
    getWordRightWithRegex [[' ', ' '], ['a', 'b']] (simpleMatcher []) ⟨0, 0⟩ true = ⟨1, 0⟩ ∧
      getWordLeftWithRegex [[' ', ' '], ['a', 'b']] (simpleMatcher []) ⟨0, 0⟩ true = ⟨0, 0⟩ :=
  ⟨((word_motion_cross_line [[' ', ' '], ['a', 'b']] (simpleMatcher []) ⟨0, 0⟩ true).1
      (by decide)).trans (by decide),
   ((word_motion_cross_line [[' ', ' '], ['a', 'b']] (simpleMatcher []) ⟨0, 0⟩ true).2
      (by decide)).trans (by decide)⟩

/-! ## Claim C2 — run partition produced by the classifiers -/

theorem takeWhile_sat {α : Type} (p : α → Bool) :
    ∀ (l : List α) (i : Nat), i < (l.takeWhile p).length →
      ∃ a, l.get? i = some a ∧ p a = true := by
  intro l
  induction l with
  | nil => intro i hi; simp [List.takeWhile] at hi
  | cons a t ih =>
    intro i hi
    rw [List.takeWhile_cons] at hi
    by_cases hpa : p a
    · rw [if_pos hpa] at hi
      cases i with
      | zero => exact ⟨a, rfl, hpa⟩
      | succ i => exact ih i (by simpa using hi)
    · rw [if_neg hpa] at hi
      simp at hi

theorem takeWhile_length_le {α : Type} (p : α → Bool) (l : List α) :
    (l.takeWhile p).length ≤ l.length := by
  induction l with
  | nil => simp [List.takeWhile]
  | cons a t ih =>
    rw [List.takeWhile_cons]
    by_cases hpa : p a
    · rw [if_pos hpa]; simpa using ih
    · rw [if_neg hpa]; simp

theorem runLen_le (p : Char → Bool) (s : List Char) (j : Nat) :
    runLen p s j ≤ s.length - j := by
  have h := takeWhile_length_le p (s.drop j)
  simpa [runLen, List.length_drop] using h

theorem runLen_sat (p : Char → Bool) (s : List Char) (j k : Nat)
    (h1 : j ≤ k) (h2 : k < j + runLen p s j) :
    ∃ c, s.get? k = some c ∧ p c = true := by
  obtain ⟨c, hc, hp⟩ := takeWhile_sat p (s.drop j) (k - j) (by
    simp only [runLen] at h2; omega)
  refine ⟨c, ?_, hp⟩
  rw [← hc, List.get?_drop]
  congr 1
  omega

theorem runLen_pos (p : Char → Bool) (s : List Char) (j : Nat) (c : Char)
    (hg : s.get? j = some c) (hp : p c = true) : 1 ≤ runLen p s j := by
  have hd : (s.drop j).get? 0 = some c := by rw [List.get?_drop]; simpa using hg
  cases hdrop : s.drop j with
  | nil => rw [hdrop] at hd; simp at hd
  | cons a t =>
    rw [hdrop] at hd
    obtain rfl : a = c := by simpa using hd
    simp only [runLen, hdrop, List.takeWhile_cons, if_pos hp]
    simp

theorem itersLenF_le (a b la : Char → Bool) (s : List Char) :
    ∀ fuel p, itersLenF a b la s fuel p ≤ s.length - p := by
  intro fuel
  induction fuel with
  | zero => intro p; simp [itersLenF]
  | succ fuel ih =>
    intro p
    cases hc : s.get? p with
    | none => simp only [itersLenF, hc]; omega
    | some c =>
      cases hb : s.get? (p - 1) with
      | none => simp only [itersLenF, hc, hb]; omega
      | some cb =>
        cases hn : s.get? (p + 1) with
        | none => simp only [itersLenF, hc, hb, hn]; omega
        | some cn =>
          simp only [itersLenF, hc, hb, hn]
          split
          · have h1 : p + 1 < s.length := List.get?_eq_some.mp hn |>.fst
            have h2 := ih (p + 1)
            omega
          · omega

theorem itersLenF_sat (a b la : Char → Bool) (s : List Char) :
    ∀ fuel p k, p ≤ k → k < p + itersLenF a b la s fuel p →
      ∃ c, s.get? k = some c ∧ a c = true := by
  intro fuel
  induction fuel with
  | zero => intro p k h1 h2; simp [itersLenF] at h2; omega
  | succ fuel ih =>
    intro p k h1 h2
    cases hc : s.get? p with
    | none => simp only [itersLenF, hc] at h2; omega
    | some c =>
      cases hb : s.get? (p - 1) with
      | none => simp only [itersLenF, hc, hb] at h2; omega
      | some cb =>
        cases hn : s.get? (p + 1) with
        | none => simp only [itersLenF, hc, hb, hn] at h2; omega
        | some cn =>
          simp only [itersLenF, hc, hb, hn] at h2
          by_cases hcond : (a c && b cb && la cn && decide (p ≥ 1)) = true
          · rw [if_pos hcond] at h2
            rcases Nat.eq_or_lt_of_le h1 with rfl | hk
            · exact ⟨c, hc, by simp at hcond; exact hcond.1.1.1⟩
            · exact ih (p + 1) k hk (by omega)
          · rw [if_neg hcond] at h2
            omega

/-- The properties of a classifier's match function that make its runs
tile the non-whitespace characters of any line: a match on a non-empty
line is non-empty, stays in bounds, and consists of non-whitespace
characters; every non-whitespace character starts a match; no
whitespace character does; and the empty line has the zero-length `$^`
match at index 0. -/
structure LawfulMatcher (m : Matcher) : Prop where
  ne : ∀ s j L, m s j = some L → s ≠ [] → 1 ≤ L
  bound : ∀ s j L, m s j = some L → j + L ≤ s.length
  sat : ∀ s j L, m s j = some L → ∀ k, j ≤ k → k < j + L →
    ∃ c, s.get? k = some c ∧ isWs c = false
  hit : ∀ s j c, s.get? j = some c → isWs c = false → ∃ L, m s j = some L
  miss : ∀ s j c, s.get? j = some c → isWs c = true → m s j = none
  emptyCase : m [] 0 = some 0

theorem coveredBy_cons (r : Nat × Nat) (rs : List (Nat × Nat)) (k : Nat) :
    coveredBy (r :: rs) k = ((r.1 ≤ k && k < r.1 + r.2) || coveredBy rs k) := by
  simp [coveredBy]

/-- The scan over a lawful matcher on a non-empty line: all runs lie at
or after the scan index within bounds and are non-empty, consecutive
runs are ordered and disjoint, and from the scan index on, a character
is inside some run exactly when it is not whitespace. -/
theorem scan_spec (m : Matcher) (hm : LawfulMatcher m) (s : List Char)
    (hs : s ≠ []) :
    ∀ fuel i, s.length + 1 - i ≤ fuel →
      (∀ r ∈ scanFuel m s fuel i, i ≤ r.1 ∧ 1 ≤ r.2 ∧ r.1 + r.2 ≤ s.length) ∧
      List.Pairwise (fun r₁ r₂ => r₁.1 + r₁.2 ≤ r₂.1) (scanFuel m s fuel i) ∧
      (∀ k c, i ≤ k → s.get? k = some c →
        (coveredBy (scanFuel m s fuel i) k = true ↔ isWs c = false)) := by
  intro fuel
  induction fuel with
  | zero =>
    intro i hi
    refine ⟨by simp [scanFuel], by simp [scanFuel], ?_⟩
    intro k c hk hc
    have : k < s.length := List.get?_eq_some.mp hc |>.fst
    omega
  | succ fuel ih =>
    intro i hi
    simp only [scanFuel]
    split
    · rename_i hf
      have hnone := findFrom_none m s i hf
      refine ⟨by simp, by simp, ?_⟩
      intro k c hk hc
      have hlen : k < s.length := List.get?_eq_some.mp hc |>.fst
      have hws : isWs c = true := by
        by_contra hws
        obtain ⟨L, hL⟩ := hm.hit s k c hc (by simpa using hws)
        rw [hnone k hk (by omega)] at hL
        exact absurd hL (by simp)
      simp [coveredBy, hws]
    · rename_i j L hf
      obtain ⟨hij, hjs, hmj, hgap⟩ := findFrom_some m s i j L hf
      have hL1 : 1 ≤ L := hm.ne s j L hmj hs
      have hbound : j + L ≤ s.length := hm.bound s j L hmj
      have hnext : (if L = 0 then j + 1 else j + L) = j + L := by
        rw [if_neg (by omega)]
      rw [hnext]
      obtain ⟨ihmem, ihpw, ihcov⟩ := ih (j + L) (by omega)
      refine ⟨?_, ?_, ?_⟩
      · intro r hr
        rcases List.mem_cons.mp hr with rfl | hr
        · exact ⟨hij, hL1, hbound⟩
        · obtain ⟨h1, h2, h3⟩ := ihmem r hr
          exact ⟨by omega, h2, h3⟩
      · exact List.Pairwise.cons (fun r hr => (ihmem r hr).1) ihpw
      · intro k c hk hc
        have hlen : k < s.length := List.get?_eq_some.mp hc |>.fst
        rw [coveredBy_cons]
        rcases Nat.lt_or_ge k j with hkj | hkj
        · -- in the whitespace gap before the match
          have hmk := hgap k hk hkj
          have hws : isWs c = true := by
            by_contra hws
            obtain ⟨L', hL'⟩ := hm.hit s k c hc (by simpa using hws)
            rw [hmk] at hL'
            exact absurd hL' (by simp)
          have hcov2 : coveredBy (scanFuel m s fuel (j + L)) k = false := by
            rw [← Bool.not_eq_true]
            intro hcov3
            simp only [coveredBy, List.any_eq_true] at hcov3
            obtain ⟨r, hr, hrk⟩ := hcov3
            have := (ihmem r hr).1
            simp only [Bool.and_eq_true, decide_eq_true_eq] at hrk
            omega
          simp only [hcov2, Bool.or_false, hws]
          constructor
          · intro hand
            simp only [Bool.and_eq_true, decide_eq_true_eq] at hand
            omega
          · intro hfalse
            exact absurd hfalse (by simp)
        · rcases Nat.lt_or_ge k (j + L) with hkL | hkL
          · -- inside the new run
            obtain ⟨c', hc', hws'⟩ := hm.sat s j L hmj k hkj hkL
            obtain rfl : c' = c := by rw [hc] at hc'; simpa using hc'.symm
            have hh : (decide (j ≤ k) && decide (k < j + L)) = true := by
              simp only [Bool.and_eq_true, decide_eq_true_eq]
              omega
            simp [hh, hws']
          · -- beyond the new run: defer to the tail of the scan
            have hh : (decide (j ≤ k) && decide (k < j + L)) = false := by
              simp only [Bool.and_eq_false_iff, decide_eq_false_iff_not]
              right; omega
            rw [hh]
            simp only [Bool.false_or]
            exact ihcov k c hkL hc

/-- The runs of a lawful matcher tile a line: ordered pairwise-disjoint
runs, a character index is covered exactly when it is not whitespace,
and the empty line yields the single zero-length boundary match. -/
theorem lawful_partition (m : Matcher) (hm : LawfulMatcher m) (s : List Char) :
    List.Pairwise (fun r₁ r₂ => r₁.1 + r₁.2 ≤ r₂.1) (getAllMatches m s) ∧
      (∀ k c, s.get? k = some c →
        (coveredBy (getAllMatches m s) k = true ↔ isWs c = false)) ∧
      getAllMatches m [] = [(0, 0)] := by
  have hfind : findFrom m [] 0 = some (0, 0) := by
    have h1 : ([] : List Char).length + 1 - 0 = 1 := by simp
    simp only [findFrom, h1, findFromF]
    rw [if_pos (by simp), hm.emptyCase]
  have hempty : getAllMatches m [] = [(0, 0)] := by
    simp only [getAllMatches, List.length_nil]
    show scanFuel m [] (0 + 1) 0 = [(0, 0)]
    simp [scanFuel, hfind, findFrom_none_of_gt m [] 1 (by simp)]
  by_cases hs : s = []
  · subst hs
    refine ⟨?_, ?_, hempty⟩
    · rw [hempty]; simp
    · intro k c hc; simp at hc
  · obtain ⟨_, hpw, hcov⟩ := scan_spec m hm s hs (s.length + 1) 0 (by omega)
    exact ⟨hpw, fun k c hc => hcov k c (Nat.zero_le k) hc, hempty⟩

/-- Two interval lists are disjoint. -/
def intervalsDisjoint (A B : List (Nat × Nat)) : Bool :=
  A.all fun a => B.all fun b => a.2 < b.1 || b.2 < a.1

theorem intervalsDisjoint_spec (A B : List (Nat × Nat))
    (h : intervalsDisjoint A B = true) (n : Nat)
    (hA : inIntervals A n = true) : inIntervals B n = false := by
  simp only [intervalsDisjoint, List.all_eq_true] at h
  simp only [inIntervals, List.any_eq_true, Bool.and_eq_true, decide_eq_true_eq] at hA
  obtain ⟨a, haA, ha1, ha2⟩ := hA
  rw [← Bool.not_eq_true]
  intro hB
  simp only [inIntervals, List.any_eq_true, Bool.and_eq_true, decide_eq_true_eq] at hB
  obtain ⟨b, hbB, hb1, hb2⟩ := hB
  have := h a haA b hbB
  simp only [Bool.or_eq_true, decide_eq_true_eq] at this
  omega

theorem not_ws_of_disjoint (rs : List (Nat × Nat))
    (hd : intervalsDisjoint rs wsIntervals = true) (c : Char)
    (h : inIntervals rs c.toNat = true) : isWs c = false := by
  have := intervalsDisjoint_spec rs wsIntervals hd c.toNat h
  simpa [isWs] using this

theorem isUpperAZ_not_ws (c : Char) (h : isUpperAZ c = true) : isWs c = false := by
  refine not_ws_of_disjoint [(65, 90)] (by decide) c ?_
  simp only [isUpperAZ, Bool.and_eq_true, decide_eq_true_eq] at h
  simp [inIntervals]
  omega

theorem isDigit09_not_ws (c : Char) (h : isDigit09 c = true) : isWs c = false := by
  refine not_ws_of_disjoint [(48, 57)] (by decide) c ?_
  simp only [isDigit09, Bool.and_eq_true, decide_eq_true_eq] at h
  simp [inIntervals]
  omega

theorem underscore_not_ws (c : Char) (h : c = Char.ofNat 95) : isWs c = false := by
  subst h; decide

/-- `makeWordRegex` matchers are lawful whenever the configured
character set holds no whitespace. -/
theorem simpleMatcher_lawful (cs : List Char)
    (hcs : ∀ c ∈ cs, isWs c = false) : LawfulMatcher (simpleMatcher cs) := by
  constructor
  case ne =>
    intro s j L hL hs
    cases hg : s.get? j with
    | none =>
      simp only [simpleMatcher, hg] at hL
      split at hL
      · rename_i hcond
        exact absurd (List.length_eq_zero.mp hcond.1) hs
      · exact absurd hL (by simp)
    | some ch =>
      simp only [simpleMatcher, hg] at hL
      split at hL
      · rename_i hcond
        obtain rfl : runLen _ s j = L := Option.some.inj hL
        exact runLen_pos _ s j ch hg (by simpa using hcond)
      · split at hL
        · rename_i hcond
          obtain rfl : runLen _ s j = L := Option.some.inj hL
          exact runLen_pos _ s j ch hg (by simpa using hcond)
        · exact absurd hL (by simp)
  case bound =>
    intro s j L hL
    cases hg : s.get? j with
    | none =>
      simp only [simpleMatcher, hg] at hL
      split at hL
      · rename_i hcond
        obtain rfl : (0 : Nat) = L := Option.some.inj hL
        omega
      · exact absurd hL (by simp)
    | some ch =>
      have hj : j < s.length := List.get?_eq_some.mp hg |>.fst
      simp only [simpleMatcher, hg] at hL
      split at hL
      · obtain rfl : runLen _ s j = L := Option.some.inj hL
        have := runLen_le (fun c => decide (¬ isWs c = true ∧ c ∉ cs)) s j
        omega
      · split at hL
        · obtain rfl : runLen _ s j = L := Option.some.inj hL
          have := runLen_le (fun c => decide (c ∈ cs)) s j
          omega
        · exact absurd hL (by simp)
  case sat =>
    intro s j L hL k hk1 hk2
    cases hg : s.get? j with
    | none =>
      simp only [simpleMatcher, hg] at hL
      split at hL
      · obtain rfl : (0 : Nat) = L := Option.some.inj hL
        omega
      · exact absurd hL (by simp)
    | some ch =>
      simp only [simpleMatcher, hg] at hL
      split at hL
      · obtain rfl : runLen _ s j = L := Option.some.inj hL
        obtain ⟨c, hc, hp⟩ := runLen_sat _ s j k hk1 hk2
        refine ⟨c, hc, ?_⟩
        simp only [decide_eq_true_eq] at hp
        simpa using hp.1
      · split at hL
        · rename_i hmem
          obtain rfl : runLen _ s j = L := Option.some.inj hL
          obtain ⟨c, hc, hp⟩ := runLen_sat _ s j k hk1 hk2
          refine ⟨c, hc, hcs c ?_⟩
          simpa using hp
        · exact absurd hL (by simp)
  case hit =>
    intro s j c hg hws
    simp only [simpleMatcher, hg]
    by_cases hmem : c ∈ cs
    · by_cases hfirst : ¬ isWs c = true ∧ c ∉ cs
      · exact ⟨_, by rw [if_pos hfirst]⟩
      · refine ⟨_, by rw [if_neg hfirst, if_pos hmem]⟩
    · refine ⟨_, by rw [if_pos ⟨by simp [hws], hmem⟩]⟩
  case miss =>
    intro s j c hg hws
    simp only [simpleMatcher, hg]
    have hmem : c ∉ cs := fun hmem => by rw [hcs c hmem] at hws; exact absurd hws (by simp)
    rw [if_neg (by rintro ⟨h1, _⟩; exact h1 hws), if_neg hmem]
  case emptyCase => simp [simpleMatcher]

theorem itersLen_le (a b la : Char → Bool) (s : List Char) (p : Nat) :
    itersLen a b la s p ≤ s.length - p :=
  itersLenF_le a b la s _ p

theorem itersLen_sat (a b la : Char → Bool) (s : List Char) (p k : Nat)
    (h1 : p ≤ k) (h2 : k < p + itersLen a b la s p) :
    ∃ c, s.get? k = some c ∧ a c = true :=
  itersLenF_sat a b la s _ p k h1 h2

/-- `makeCamelCaseWordRegex` matchers are lawful whenever the
configured character set holds no whitespace. -/
theorem camelMatcher_lawful (cs : List Char)
    (hcs : ∀ c ∈ cs, isWs c = false) : LawfulMatcher (camelMatcher cs) := by
  constructor
  case ne =>
    intro s j L hL hs
    cases hg : s.get? j with
    | none =>
      simp only [camelMatcher, hg] at hL
      split at hL
      · rename_i hcond
        exact absurd (List.length_eq_zero.mp hcond.1) hs
      · exact absurd hL (by simp)
    | some ch =>
      simp only [camelMatcher, hg] at hL
      split at hL
      · obtain rfl := Option.some.inj hL
        omega
      · split at hL
        · rename_i hcond
          obtain rfl : runLen _ s j = L := Option.some.inj hL
          exact runLen_pos _ s j ch hg (by simpa using hcond)
        · exact absurd hL (by simp)
  case bound =>
    intro s j L hL
    cases hg : s.get? j with
    | none =>
      simp only [camelMatcher, hg] at hL
      split at hL
      · obtain rfl : (0 : Nat) = L := Option.some.inj hL
        omega
      · exact absurd hL (by simp)
    | some ch =>
      have hj : j < s.length := List.get?_eq_some.mp hg |>.fst
      simp only [camelMatcher, hg] at hL
      split at hL
      · obtain rfl := Option.some.inj hL
        have h1 := itersLen_le isUpperAZ (fun c => isUpperAZ c || c = Char.ofNat 95)
          (camelLookahead cs) s (j + 1)
        have h2 := itersLen_le isDigit09 (fun c => isDigit09 c || c = Char.ofNat 95)
          (camelLookahead cs) s (j + 1)
        have h3 := itersLen_le (fun c => c = Char.ofNat 95) (fun c => c = Char.ofNat 95)
          (underLookahead cs) s (j + 1)
        have h4 := runLen_le (fun c => ¬ isWs c ∧ ¬ isUpperAZ c ∧ ¬ isDigit09 c ∧
          c ∉ cs ∧ c ≠ Char.ofNat 95) s (j + 1)
        split
        · omega
        · split
          · omega
          · split <;> omega
      · split at hL
        · obtain rfl : runLen _ s j = L := Option.some.inj hL
          have := runLen_le (fun c => decide (c ∈ cs)) s j
          omega
        · exact absurd hL (by simp)
  case sat =>
    intro s j L hL k hk1 hk2
    cases hg : s.get? j with
    | none =>
      simp only [camelMatcher, hg] at hL
      split at hL
      · obtain rfl : (0 : Nat) = L := Option.some.inj hL
        omega
      · exact absurd hL (by simp)
    | some ch =>
      simp only [camelMatcher, hg] at hL
      split at hL
      · rename_i hcond
        obtain rfl := Option.some.inj hL
        rcases Nat.eq_or_lt_of_le hk1 with rfl | hk
        · exact ⟨ch, hg, by simpa using hcond.1⟩
        · split at hk2
          · obtain ⟨c, hc, hp⟩ := itersLen_sat isUpperAZ
              (fun c => isUpperAZ c || c = Char.ofNat 95) (camelLookahead cs) s
              (j + 1) k hk (by omega)
            exact ⟨c, hc, isUpperAZ_not_ws c hp⟩
          · split at hk2
            · obtain ⟨c, hc, hp⟩ := itersLen_sat isDigit09
                (fun c => isDigit09 c || c = Char.ofNat 95) (camelLookahead cs) s
                (j + 1) k hk (by omega)
              exact ⟨c, hc, isDigit09_not_ws c hp⟩
            · split at hk2
              · obtain ⟨c, hc, hp⟩ := itersLen_sat (fun c => c = Char.ofNat 95)
                  (fun c => c = Char.ofNat 95) (underLookahead cs) s (j + 1) k hk (by omega)
                exact ⟨c, hc, underscore_not_ws c (by simpa using hp)⟩
              · obtain ⟨c, hc, hp⟩ := runLen_sat
                  (fun c => ¬ isWs c ∧ ¬ isUpperAZ c ∧ ¬ isDigit09 c ∧
                    c ∉ cs ∧ c ≠ Char.ofNat 95) s (j + 1) k hk (by omega)
                refine ⟨c, hc, ?_⟩
                simp only [decide_eq_true_eq] at hp
                simpa using hp.1
      · split at hL
        · rename_i hmem
          obtain rfl : runLen _ s j = L := Option.some.inj hL
          obtain ⟨c, hc, hp⟩ := runLen_sat _ s j k hk1 hk2
          refine ⟨c, hc, hcs c ?_⟩
          simpa using hp
        · exact absurd hL (by simp)
  case hit =>
    intro s j c hg hws
    simp only [camelMatcher, hg]
    by_cases hmem : c ∈ cs
    · rw [if_neg (by rintro ⟨_, h2⟩; exact h2 hmem), if_pos hmem]
      exact ⟨_, rfl⟩
    · rw [if_pos ⟨by simp [hws], hmem⟩]
      exact ⟨_, rfl⟩
  case miss =>
    intro s j c hg hws
    simp only [camelMatcher, hg]
    have hmem : c ∉ cs := fun hmem => by rw [hcs c hmem] at hws; exact absurd hws (by simp)
    rw [if_neg (by rintro ⟨h1, _⟩; exact h1 hws), if_neg hmem]
  case emptyCase => simp [camelMatcher]

/-- Every symbol class of the Unicode word regex contains only
non-whitespace characters (the fixed table avoids every JavaScript
whitespace code point, and the configured keyword characters are
assumed whitespace-free). -/
theorem symbolClasses_not_ws (cs : List Char) (hcs : ∀ c ∈ cs, isWs c = false) :
    ∀ p ∈ symbolClasses cs, ∀ c, p c = true → isWs c = false := by
  intro p hp c hpc
  simp only [symbolClasses, List.mem_cons, List.not_mem_nil, or_false] at hp
  rcases hp with rfl | rfl | rfl | rfl | rfl | rfl | rfl | rfl
  · simp only [Bool.or_eq_true] at hpc
    rcases hpc with h | h
    · exact not_ws_of_disjoint punctIntervals (by decide) c h
    · exact hcs c (by simpa using h)
  · exact not_ws_of_disjoint supIntervals (by decide) c hpc
  · exact not_ws_of_disjoint subIntervals (by decide) c hpc
  · exact not_ws_of_disjoint brailleIntervals (by decide) c hpc
  · exact not_ws_of_disjoint ideoIntervals (by decide) c hpc
  · exact not_ws_of_disjoint hiraIntervals (by decide) c hpc
  · exact not_ws_of_disjoint kataIntervals (by decide) c hpc
  · exact not_ws_of_disjoint hangulIntervals (by decide) c hpc

/-- `makeUnicodeWordRegex` matchers are lawful whenever the configured
keyword set holds no whitespace. -/
theorem unicodeMatcher_lawful (cs : List Char)
    (hcs : ∀ c ∈ cs, isWs c = false) : LawfulMatcher (unicodeMatcher cs) := by
  constructor
  case ne =>
    intro s j L hL hs
    cases hg : s.get? j with
    | none =>
      simp only [unicodeMatcher, hg] at hL
      split at hL
      · rename_i hcond
        exact absurd (List.length_eq_zero.mp hcond.1) hs
      · exact absurd hL (by simp)
    | some ch =>
      simp only [unicodeMatcher, hg] at hL
      split at hL
      · rename_i p hf
        obtain rfl := Option.some.inj hL
        have hp := List.find?_some hf
        exact runLen_pos p s j ch hg (by simpa using hp)
      · exact absurd hL (by simp)
  case bound =>
    intro s j L hL
    cases hg : s.get? j with
    | none =>
      simp only [unicodeMatcher, hg] at hL
      split at hL
      · obtain rfl : (0 : Nat) = L := Option.some.inj hL
        omega
      · exact absurd hL (by simp)
    | some ch =>
      have hj : j < s.length := List.get?_eq_some.mp hg |>.fst
      simp only [unicodeMatcher, hg] at hL
      split at hL
      · rename_i p hf
        obtain rfl := Option.some.inj hL
        have := runLen_le p s j
        omega
      · exact absurd hL (by simp)
  case sat =>
    intro s j L hL k hk1 hk2
    cases hg : s.get? j with
    | none =>
      simp only [unicodeMatcher, hg] at hL
      split at hL
      · obtain rfl : (0 : Nat) = L := Option.some.inj hL
        omega
      · exact absurd hL (by simp)
    | some ch =>
      simp only [unicodeMatcher, hg] at hL
      split at hL
      · rename_i p hf
        obtain rfl := Option.some.inj hL
        obtain ⟨c, hc, hp⟩ := runLen_sat p s j k hk1 hk2
        refine ⟨c, hc, ?_⟩
        rcases List.mem_append.mp (List.mem_of_find?_eq_some hf) with hmem | hmem
        · exact symbolClasses_not_ws cs hcs p hmem c hp
        · obtain rfl : p = unicodeWordClass cs := by simpa using hmem
          simp only [unicodeWordClass, Bool.and_eq_true, decide_eq_true_eq] at hp
          simpa using hp.1
      · exact absurd hL (by simp)
  case hit =>
    intro s j c hg hws
    simp only [unicodeMatcher, hg]
    cases hf : (symbolClasses cs ++ [unicodeWordClass cs]).find? (fun p => p c) with
    | some p => exact ⟨runLen p s j, rfl⟩
    | none =>
      exfalso
      have hall := List.find?_eq_none.mp hf
      have hword : unicodeWordClass cs c = true := by
        simp only [unicodeWordClass, Bool.and_eq_true, decide_eq_true_eq]
        refine ⟨by simp [hws], ?_⟩
        rw [List.all_eq_true]
        intro p hp
        have := hall p (List.mem_append.mpr (Or.inl hp))
        simpa using this
      exact hall (unicodeWordClass cs)
        (List.mem_append.mpr (Or.inr (by simp))) hword
  case miss =>
    intro s j c hg hws
    simp only [unicodeMatcher, hg]
    have hf : (symbolClasses cs ++ [unicodeWordClass cs]).find? (fun p => p c) = none := by
      rw [List.find?_eq_none]
      intro p hp hpc
      rcases List.mem_append.mp hp with hmem | hmem
      · rw [symbolClasses_not_ws cs hcs p hmem c hpc] at hws
        exact absurd hws (by simp)
      · obtain rfl : p = unicodeWordClass cs := by simpa using hmem
        simp only [unicodeWordClass, Bool.and_eq_true, decide_eq_true_eq] at hpc
        rw [hws] at hpc
        exact absurd rfl hpc.1
    rw [hf]
  case emptyCase => simp [unicodeMatcher]

/-- Claim C2 (amended) — for every classifier (word = the Unicode word
regex, bigword = `makeWordRegex('')`, camelCase-subword, and
file-path-token, the latter over the fixed `NonFileCharacters` set) and
every line text, the runs produced by boundary search are pairwise
disjoint and their index-wise union covers exactly the non-whitespace
character indices of the line, each exactly once — whitespace belongs
to no run.  The empty line does not yield zero runs: it yields a single
zero-length match at index 0 (the `$^` alternative), which covers no
character. -/
theorem classifier_runs_partition_nonws (cs : List Char)
    (hcs : ∀ c ∈ cs, isWs c = false) :
    ∀ m ∈ [unicodeMatcher cs, simpleMatcher [], camelMatcher cs,
        simpleMatcher nonFileCharacters],
      ∀ s : List Char,
        List.Pairwise (fun r₁ r₂ => r₁.1 + r₁.2 ≤ r₂.1) (getAllMatches m s) ∧
          (∀ k c, s.get? k = some c →
            (coveredBy (getAllMatches m s) k = true ↔ isWs c = false)) ∧
          getAllMatches m [] = [(0, 0)] := by
  intro m hm s
  simp only [List.mem_cons, List.not_mem_nil, or_false] at hm
  rcases hm with rfl | rfl | rfl | rfl
  · exact lawful_partition _ (unicodeMatcher_lawful cs hcs) s
  · exact lawful_partition _ (simpleMatcher_lawful [] (by simp)) s
  · exact lawful_partition _ (camelMatcher_lawful cs hcs) s
  · exact lawful_partition _ (simpleMatcher_lawful nonFileCharacters (by decide)) s

/-- Witness for C2 (amended): with the keyword set `{','}` (no
whitespace in it) and the word classifier on the line `"ab, c"`, the
runs are pairwise disjoint, cover exactly the non-whitespace indices,
and the empty line yields the single zero-length match. -/
theorem classifier_runs_partition_nonws_witness :
    (∀ c ∈ [Char.ofNat 44], isWs c = false) ∧
      (List.Pairwise (fun r₁ r₂ : Nat × Nat => r₁.1 + r₁.2 ≤ r₂.1)
          (getAllMatches (unicodeMatcher [Char.ofNat 44]) "ab, c".toList) ∧
        (∀ k c, "ab, c".toList.get? k = some c →
          (coveredBy (getAllMatches (unicodeMatcher [Char.ofNat 44])
            "ab, c".toList) k = true ↔ isWs c = false)) ∧
        getAllMatches (unicodeMatcher [Char.ofNat 44]) [] = [(0, 0)]) :=
  ⟨by decide,
    classifier_runs_partition_nonws [Char.ofNat 44] (by decide)
      (unicodeMatcher [Char.ofNat 44]) (by simp) "ab, c".toList⟩

/-- Claim C2 counterexample — the runs do **not** cover every character
index: on the line `"a b"` the bigword classifier produces the runs
`[(0,1), (2,1)]`, which leave the whitespace index 1 uncovered; and the
empty line does not yield zero runs — the `$^` alternative produces a
zero-length match at index 0. -/
theorem classifier_runs_whitespace_counterexample :
    getAllMatches (simpleMatcher []) "a b".toList = [(0, 1), (2, 1)] ∧
      coveredBy (getAllMatches (simpleMatcher []) "a b".toList) 1 = false ∧
      getAllMatches (simpleMatcher []) [] ≠ [] := by decide

end KakMode











